import Mathlib

set_option maxHeartbeats 1000000

namespace TimeTracker

/-! Shallow embedding of the obsidian-timetracker sources.

Strings are modelled as `List Char`.  The JavaScript character classes used by
the regular expressions in `src/storage.ts` are modelled over ASCII code
points: `\d`, `\s`, `\w`, and `String.prototype.toLowerCase` restricted to
ASCII. -/

/-- JavaScript `\d` (ASCII digits). -/
def isDigitC (c : Char) : Bool := 48 ≤ c.toNat && c.toNat ≤ 57

/-- JavaScript `\s` (ASCII whitespace: space, tab, LF, VT, FF, CR). -/
def isWsC (c : Char) : Bool :=
  c.toNat == 32 || c.toNat == 9 || c.toNat == 10 || c.toNat == 11 ||
  c.toNat == 12 || c.toNat == 13

/-- JavaScript `\w` (ASCII word characters `[A-Za-z0-9_]`). -/
def isWordC (c : Char) : Bool :=
  (65 ≤ c.toNat && c.toNat ≤ 90) || (97 ≤ c.toNat && c.toNat ≤ 122) ||
  (48 ≤ c.toNat && c.toNat ≤ 57) || c.toNat == 95

/-- ASCII lower-casing of a single character (JS `toLowerCase` on ASCII). -/
def jsLower (c : Char) : Char :=
  match c with
  | 'A' => 'a' | 'B' => 'b' | 'C' => 'c' | 'D' => 'd' | 'E' => 'e'
  | 'F' => 'f' | 'G' => 'g' | 'H' => 'h' | 'I' => 'i' | 'J' => 'j'
  | 'K' => 'k' | 'L' => 'l' | 'M' => 'm' | 'N' => 'n' | 'O' => 'o'
  | 'P' => 'p' | 'Q' => 'q' | 'R' => 'r' | 'S' => 's' | 'T' => 't'
  | 'U' => 'u' | 'V' => 'v' | 'W' => 'w' | 'X' => 'x' | 'Y' => 'y'
  | 'Z' => 'z' | c => c

/-- JS `String.prototype.toLowerCase` (ASCII). -/
def lowerList (l : List Char) : List Char := l.map jsLower

/-- Left part of JS `String.prototype.trim`. -/
def trimLeft (l : List Char) : List Char := l.dropWhile isWsC

/-- Right part of JS `String.prototype.trim`. -/
def trimRight (l : List Char) : List Char := (l.reverse.dropWhile isWsC).reverse

/-- JS `String.prototype.trim`. -/
def trimList (l : List Char) : List Char := trimRight (trimLeft l)

/-- Case-sensitive "starts with" on character lists. -/
def csStarts : List Char → List Char → Bool
  | [], _ => true
  | _ :: _, [] => false
  | p :: ps, c :: cs => p == c && csStarts ps cs

/-- Case-sensitive substring test: JS `String.prototype.includes`. -/
def csContains (p : List Char) : List Char → Bool
  | [] => p.isEmpty
  | c :: rest => csStarts p (c :: rest) || csContains p rest

/-- Case-insensitive "starts with" (used by the `gi`-flagged replaces). -/
def ciStarts (p l : List Char) : Bool := csStarts (lowerList p) (lowerList l)

/-- Fuel-driven runner for `removeAllCI` (structural recursion on the fuel so
the kernel can evaluate it; any fuel at least the list length is enough and
the wrapper passes exactly the length). -/
def removeAllCIF (p : List Char) : Nat → List Char → List Char
  | _, [] => []
  | 0, l => l
  | fuel + 1, c :: rest =>
    if !p.isEmpty && ciStarts p (c :: rest) then
      removeAllCIF p fuel ((c :: rest).drop p.length)
    else
      c :: removeAllCIF p fuel rest

/-- One global pass of JS `String.prototype.replace(/pat/gi, "")` for a fixed
literal pattern `p`: scan left to right, remove each case-insensitive
occurrence, and continue scanning after the removed occurrence. -/
def removeAllCI (p l : List Char) : List Char := removeAllCIF p l.length l

/-- Fuel-driven runner for `findTags` (see `removeAllCIF`). -/
def findTagsF : Nat → List Char → List (List Char)
  | _, [] => []
  | 0, _ :: _ => []
  | fuel + 1, c :: rest =>
    if c == '#' then
      if (rest.takeWhile isWordC).isEmpty then findTagsF fuel rest
      else rest.takeWhile isWordC :: findTagsF fuel (rest.dropWhile isWordC)
    else findTagsF fuel rest

/-- The matches of JS `/#\w+/g` in order, each without its leading `#`
(`src/storage.ts:140-143`: tag extraction in `parseDescription`). -/
def findTags (l : List Char) : List (List Char) := findTagsF l.length l

/-- Fuel-driven runner for `stripTags` (see `removeAllCIF`). -/
def stripTagsF : Nat → List Char → List Char
  | _, [] => []
  | 0, l => l
  | fuel + 1, c :: rest =>
    if c == '#' then
      if (rest.takeWhile isWordC).isEmpty then c :: stripTagsF fuel rest
      else stripTagsF fuel (rest.dropWhile isWordC)
    else c :: stripTagsF fuel rest

/-- JS `String.prototype.replace(/#\w+/g, "")`: remove the same matches
`findTags` finds, keeping everything else. -/
def stripTags (l : List Char) : List Char := stripTagsF l.length l

def pomChars : List Char := "(pomodoro)".data

def brkChars : List Char := "(break)".data

def breakWord : List Char := "break".data

/-- Result record of `parseDescription` (`src/storage.ts:130-160`). -/
structure ParsedDesc where
  description : List Char
  tags : List (List Char)
  isPomodoro : Bool
  isBreak : Bool
  deriving DecidableEq

/-- `TimeTrackerStorage.parseDescription` (`src/storage.ts:130-160`): extract
`#\w+` tags, detect the `(pomodoro)` marker (case-sensitive `includes`),
detect a break (lower-cased trimmed text equals `break`, or lower-cased text
contains `(break)`), and strip tags and both markers (case-insensitively)
from the description, trimming the result. -/
def parseDescription (desc : List Char) : ParsedDesc :=
  { tags := findTags desc
    isPomodoro := csContains pomChars desc
    isBreak := (trimList (lowerList desc) == breakWord) ||
               csContains brkChars (lowerList desc)
    description :=
      trimList (removeAllCI brkChars (removeAllCI pomChars (stripTags desc))) }

/-- The in-memory record (`TimeEntry` in `src/types.ts`). -/
structure TimeEntry where
  id : List Char
  date : List Char
  startTime : List Char
  endTime : List Char
  description : List Char
  tags : List (List Char)
  isPomodoro : Bool
  isBreak : Bool
  deriving DecidableEq

/-- The characters kept by `replace(/[:-]/g, "")`: everything except `:`
and `-`. -/
def keepIdC (c : Char) : Bool := !(c == ':' || c == '-')

/-- `generateStableId` (`src/storage.ts:11-13`): interpolate
`date_startTime_endTime` and erase every `:` and `-`. -/
def generateStableId (date startTime endTime : List Char) : List Char :=
  (date ++ '_' :: startTime ++ '_' :: endTime).filter keepIdC

/-- The description text built by `formatEntry` (`src/storage.ts:162-175`)
before the line template is filled in. -/
def formatDesc (e : TimeEntry) : List Char :=
  let d1 :=
    if e.tags.isEmpty then e.description
    else e.description ++ ' ' :: List.intercalate [' '] (e.tags.map (fun t => '#' :: t))
  let d2 := if e.isPomodoro then d1 ++ (" (pomodoro)".data) else d1
  if e.isBreak && !csContains breakWord (lowerList d2) then "Break".data else d2

/-- `TimeTrackerStorage.formatEntry` (`src/storage.ts:162-177`):
`` `${date} ${startTime} - ${endTime} | ${desc}` ``. -/
def formatEntry (e : TimeEntry) : List Char :=
  e.date ++ ' ' :: e.startTime ++ (" - ".data) ++ e.endTime ++ (" | ".data) ++ formatDesc e

/-! ### The entry-line grammar (`ENTRY_REGEX`, `src/storage.ts:5`)

`/^(\d{4}-\d{2}-\d{2})\s+(\d{2}:\d{2})\s*-\s*(\d{2}:\d{2})\s*\|\s*(.*)$/`
decomposed into a deterministic matcher (all the regex's quantified classes
are disjoint from the literal that follows them, so greedy matching is
deterministic; `.` does not match line terminators and `$` anchors the end of
the input, so the trailing group must take the whole remainder and contain no
line terminator). -/

/-- `\d{4}-\d{2}-\d{2}` as a chunk taken off the front. -/
def takeDate : List Char → Option (List Char × List Char)
  | y1 :: y2 :: y3 :: y4 :: s1 :: m1 :: m2 :: s2 :: d1 :: d2 :: rest =>
    if isDigitC y1 && isDigitC y2 && isDigitC y3 && isDigitC y4 && s1 == '-' &&
       isDigitC m1 && isDigitC m2 && s2 == '-' && isDigitC d1 && isDigitC d2 then
      some ([y1, y2, y3, y4, s1, m1, m2, s2, d1, d2], rest)
    else none
  | _ => none

/-- `\d{2}:\d{2}` as a chunk taken off the front. -/
def takeTime : List Char → Option (List Char × List Char)
  | h1 :: h2 :: co :: m1 :: m2 :: rest =>
    if isDigitC h1 && isDigitC h2 && co == ':' && isDigitC m1 && isDigitC m2 then
      some ([h1, h2, co, m1, m2], rest)
    else none
  | _ => none

/-- `\s+` (at least one whitespace character, then greedily all of them). -/
def skipWs1 : List Char → Option (List Char)
  | [] => none
  | c :: rest => if isWsC c then some (rest.dropWhile isWsC) else none

/-- `\s*`. -/
def skipWs (l : List Char) : List Char := l.dropWhile isWsC

/-- A single literal character of the regex. -/
def expectC (c : Char) : List Char → Option (List Char)
  | [] => none
  | d :: rest => if d == c then some rest else none

/-- Matching a (pre-trimmed) line against `ENTRY_REGEX`, returning the four
capture groups `(date, startTime, endTime, descriptionPart)`. -/
def matchEntry (l : List Char) :
    Option (List Char × List Char × List Char × List Char) :=
  match takeDate l with
  | none => none
  | some (date, r1) =>
    match skipWs1 r1 with
    | none => none
    | some r2 =>
      match takeTime r2 with
      | none => none
      | some (st, r3) =>
        match expectC '-' (skipWs r3) with
        | none => none
        | some r5 =>
          match takeTime (skipWs r5) with
          | none => none
          | some (en, r7) =>
            match expectC '|' (skipWs r7) with
            | none => none
            | some r9 =>
              let rest := skipWs r9
              if rest.any (fun c => c == '\n' || c == '\r') then none
              else some (date, st, en, rest)

/-- Decoding one line the way `parseContent` (`src/storage.ts:100-128`) does:
trim it, match it against `ENTRY_REGEX`, and decode the description part with
`parseDescription`; the id is `generateStableId` of the time fields. -/
def decodeLine (line : List Char) : Option TimeEntry :=
  match matchEntry (trimList line) with
  | none => none
  | some (date, st, en, rest) =>
    let p := parseDescription rest
    some { id := generateStableId date st en
           date := date, startTime := st, endTime := en
           description := p.description, tags := p.tags
           isPomodoro := p.isPomodoro, isBreak := p.isBreak }

/-! ### Line-level content operations (`src/storage.ts:219-252`) -/

/-- JS `Array.prototype.findIndex`, with `none` for `-1`. -/
def findIdxO (p : α → Bool) : List α → Option Nat
  | [] => none
  | a :: as => if p a then some 0 else (findIdxO p as).map (· + 1)

/-- JS `String.prototype.split("\n")`. -/
def splitNl : List Char → List (List Char)
  | [] => [[]]
  | c :: rest =>
    if c == '\n' then [] :: splitNl rest
    else
      match splitNl rest with
      | [] => [[c]]
      | h :: t => (c :: h) :: t

/-- JS `Array.prototype.join("\n")`. -/
def joinNl (ls : List (List Char)) : List Char := List.intercalate ['\n'] ls

/-- The line-array part of `replaceLineInContent`: find the first line whose
trimmed text equals `oldLine` and overwrite it with `newLine`. -/
def replaceLines (ls : List (List Char)) (oldLine newLine : List Char) :
    List (List Char) :=
  match findIdxO (fun l => trimList l == oldLine) ls with
  | some i => ls.set i newLine
  | none => ls

/-- The line-array part of `removeLineFromContent`: find the first line whose
trimmed text equals `lineToRemove` and splice it out. -/
def removeLines (ls : List (List Char)) (lineToRemove : List Char) :
    List (List Char) :=
  match findIdxO (fun l => trimList l == lineToRemove) ls with
  | some i => ls.eraseIdx i
  | none => ls

/-- `replaceLineInContent` (`src/storage.ts:219-226`). -/
def replaceLineInContent (content oldLine newLine : List Char) : List Char :=
  joinNl (replaceLines (splitNl content) oldLine newLine)

/-- `removeLineFromContent` (`src/storage.ts:231-238`). -/
def removeLineFromContent (content lineToRemove : List Char) : List Char :=
  joinNl (removeLines (splitNl content) lineToRemove)

/-! ### The record store (`TimeTrackerStorage`), mutation operations -/

/-- `ParsedEntry` (`src/storage.ts:15-17`): a record plus the original line
text used as the match key for in-place line updates. -/
structure ParsedEntry extends TimeEntry where
  originalLine : List Char
  deriving DecidableEq

/-- A `Partial<TimeEntry>` argument (the `updates` parameter of
`updateEntry`): absent fields are `none`. -/
structure EntryUpdates where
  date : Option (List Char) := none
  startTime : Option (List Char) := none
  endTime : Option (List Char) := none
  description : Option (List Char) := none
  tags : Option (List (List Char)) := none
  isPomodoro : Option Bool := none
  isBreak : Option Bool := none
  deriving DecidableEq

/-- JS object spread `{ ...oldEntry, ...updates }` on the record fields. -/
def applyUpdates (e : TimeEntry) (u : EntryUpdates) : TimeEntry :=
  { id := e.id
    date := u.date.getD e.date
    startTime := u.startTime.getD e.startTime
    endTime := u.endTime.getD e.endTime
    description := u.description.getD e.description
    tags := u.tags.getD e.tags
    isPomodoro := u.isPomodoro.getD e.isPomodoro
    isBreak := u.isBreak.getD e.isBreak }

/-- The state a store mutation can read and write: the in-memory entry list
and the backing file content (`none` when the file is absent, mirroring
`readFile` returning `null`). -/
structure StoreState where
  entries : List ParsedEntry
  content : Option (List Char)
  deriving DecidableEq

/-- `TimeTrackerStorage.updateEntry` (`src/storage.ts:285-307`): locate the
entry by id (no-op when absent), merge the partial updates, recompute the id,
re-encode the line, replace the first matching line in the file content when
the file is readable, and update the in-memory entry either way. -/
def updateEntry (st : StoreState) (id : List Char) (u : EntryUpdates) :
    StoreState :=
  match findIdxO (fun pe => pe.id == id) st.entries with
  | none => st
  | some i =>
    match st.entries[i]? with
    | none => st
    | some oldE =>
      let merged0 := applyUpdates oldE.toTimeEntry u
      let merged : TimeEntry :=
        { merged0 with
            id := generateStableId merged0.date merged0.startTime merged0.endTime }
      let newLine := formatEntry merged
      { entries := st.entries.set i ⟨merged, newLine⟩
        content :=
          match st.content with
          | none => none
          | some c => some (replaceLineInContent c oldE.originalLine newLine) }

/-- `TimeTrackerStorage.deleteEntry` (`src/storage.ts:309-324`): locate the
entry by id (no-op when absent), remove the first matching line from the file
content when the file is readable, and splice the entry out of memory. -/
def deleteEntry (st : StoreState) (id : List Char) : StoreState :=
  match findIdxO (fun pe => pe.id == id) st.entries with
  | none => st
  | some i =>
    match st.entries[i]? with
    | none => st
    | some e =>
      { entries := st.entries.eraseIdx i
        content :=
          match st.content with
          | none => none
          | some c => some (removeLineFromContent c e.originalLine) }

/-! ### The pomodoro timer (`PomodoroTimer`) -/

inductive TimerState | idle | running | paused
  deriving DecidableEq

inductive TimerMode | work | break_ | longBreak
  deriving DecidableEq

/-- The duration-related options of `PomodoroTimerOptions`. -/
structure PomodoroTimerOptions where
  workMinutes : Nat
  breakMinutes : Nat
  longBreakMinutes : Nat
  pomodorosBeforeLongBreak : Nat
  deriving DecidableEq

/-- The timer's mutable fields (callbacks and interval handles excluded). -/
structure PomodoroTimer where
  options : PomodoroTimerOptions
  state : TimerState
  mode : TimerMode
  remainingSeconds : Int
  completedPomodoros : Nat
  deriving DecidableEq

/-- `PomodoroTimer.getDurationForMode`. -/
def getDurationForMode (o : PomodoroTimerOptions) : TimerMode → Nat
  | .work => o.workMinutes * 60
  | .break_ => o.breakMinutes * 60
  | .longBreak => o.longBreakMinutes * 60

/-- The state-transition part of `PomodoroTimer.complete`
(`src/unnamed/part_003`, `complete`): on a completed `work` phase increment
the pomodoro count and go to `longBreak` (count reset) when the count reaches
the threshold, else to `break`; after either break go back to `work`; then
load the new mode's full duration and become idle. -/
def complete (t : PomodoroTimer) : PomodoroTimer :=
  let t1 :=
    if t.mode = .work then
      let c := t.completedPomodoros + 1
      if c ≥ t.options.pomodorosBeforeLongBreak then
        { t with mode := .longBreak, completedPomodoros := 0 }
      else
        { t with mode := .break_, completedPomodoros := c }
    else
      { t with mode := .work }
  { t1 with
      remainingSeconds := (getDurationForMode t1.options t1.mode : Int)
      state := .idle }

/-! ### Slot-grid drag geometry (`handleDragMove`,
`src/components/WeekGrid.ts:435-460`) and time utilities
(`src/utils/time.ts`) -/

/-- The `move` branch (`WeekGrid.ts:448-452`). -/
def dragMove (initialStartSlot initialEndSlot delta : Int) : Int × Int :=
  let newStartSlot := max 0 (min 95 (initialStartSlot + delta))
  let duration := initialEndSlot - initialStartSlot
  let newEndSlot := min 96 (newStartSlot + duration)
  (newEndSlot - duration, newEndSlot)

/-- The `resize-top` branch (`WeekGrid.ts:453-454`). -/
def dragResizeTop (initialStartSlot initialEndSlot delta : Int) : Int :=
  max 0 (min (initialEndSlot - 1) (initialStartSlot + delta))

/-- The `resize-bottom` branch (`WeekGrid.ts:455-457`). -/
def dragResizeBottom (initialStartSlot initialEndSlot delta : Int) : Int :=
  max (initialStartSlot + 1) (min 96 (initialEndSlot + delta))

/-- Two-digit zero padding, JS `String(n).padStart(2, "0")` for `n < 100`
(every use site passes a value below 60 or below 24). -/
def padTwo (n : Nat) : List Char :=
  if n < 10 then ['0', Nat.digitChar n]
  else [Nat.digitChar (n / 10), Nat.digitChar (n % 10)]

/-- `minutesToTime` (`src/utils/time.ts:39-43`): hours reduced mod 24. -/
def minutesToTime (minutes : Nat) : List Char :=
  padTwo ((minutes / 60) % 24) ++ ':' :: padTwo (minutes % 60)

/-- `slotToTime` (`src/utils/time.ts:89-92`). -/
def slotToTime (slot : Nat) : List Char := minutesToTime (slot * 15)

/-- JS `Number` on a digit string (the result of `split(":")` on `HH:MM`). -/
def natOfDigits (l : List Char) : Nat :=
  l.foldl (fun a c => a * 10 + (c.toNat - 48)) 0

/-- `parseTimeToMinutes` (`src/utils/time.ts:31-34`), also the inline
`split(":").map(Number)` computation in `getTotalMinutesForDate`. -/
def parseTimeToMinutes (t : List Char) : Nat :=
  natOfDigits (t.takeWhile (fun c => !(c == ':'))) * 60 +
  natOfDigits ((t.dropWhile (fun c => !(c == ':'))).drop 1)

/-- `getTotalMinutesForDate` (`src/storage.ts:326-335`): sum of
`endMinutes - startMinutes` over the date's entries. -/
def getTotalMinutesForDate (entries : List TimeEntry) (date : List Char) : Int :=
  (entries.filter (fun e => e.date == date)).foldl
    (fun total e =>
      total + ((parseTimeToMinutes e.endTime : Int) -
               (parseTimeToMinutes e.startTime : Int))) 0

/-- JS `<` on strings (lexicographic by UTF-16 code unit; ASCII here). -/
def strLt : List Char → List Char → Bool
  | [], [] => false
  | [], _ :: _ => true
  | _ :: _, [] => false
  | a :: as, b :: bs => a < b || (a == b && strLt as bs)

/-- The `updateEntry` argument committed by `handleDragEnd`
(`src/components/WeekGrid.ts:483-486`). -/
def dragCommitUpdate (newStartSlot newEndSlot : Nat) : EntryUpdates :=
  { startTime := some (slotToTime newStartSlot)
    endTime := some (slotToTime newEndSlot) }

/-- A sample record used by concrete witnesses. -/
def sampleEntry : TimeEntry :=
  { id := "20250121_1100_1230".data
    date := "2025-01-21".data
    startTime := "11:00".data
    endTime := "12:30".data
    description := "Meeting with team".data
    tags := ["work".data]
    isPomodoro := false
    isBreak := false }

/-- A sample store state used by concrete witnesses. -/
def sampleStore : StoreState :=
  { entries := [⟨sampleEntry, "2025-01-21 11:00 - 12:30 | Meeting with team #work".data⟩]
    content := some "2025-01-21 11:00 - 12:30 | Meeting with team #work".data }

/-! ## Well-formed field shapes

The fixed-width field formats named by the spec: `YYYY-MM-DD` dates and
`HH:MM` times (exactly the shapes `ENTRY_REGEX` captures). -/

/-- `\d{4}-\d{2}-\d{2}`, the whole string. -/
def wfDate : List Char → Bool
  | [y1, y2, y3, y4, s1, m1, m2, s2, d1, d2] =>
    isDigitC y1 && isDigitC y2 && isDigitC y3 && isDigitC y4 && s1 == '-' &&
    isDigitC m1 && isDigitC m2 && s2 == '-' && isDigitC d1 && isDigitC d2
  | _ => false

/-- `\d{2}:\d{2}`, the whole string. -/
def wfTime : List Char → Bool
  | [h1, h2, co, m1, m2] =>
    isDigitC h1 && isDigitC h2 && co == ':' && isDigitC m1 && isDigitC m2
  | _ => false

/-! ## Helper lemmas -/

/-- The text `formatEntry` appends for a nonempty tag list, flattened:
`" #t1 #t2 ..."` (one leading space, then `#`-prefixed tags separated by
single spaces). -/
def tagsChunk : List (List Char) → List Char
  | [] => []
  | t :: ts => ' ' :: '#' :: (t ++ tagsChunk ts)

/-- The text `formatEntry` appends for the pomodoro marker. -/
def pomChunk (b : Bool) : List Char := if b then ' ' :: pomChars else []

/-- A well-formed tag: nonempty and all word characters (anything else cannot
survive a `#tag` round trip through the `/#\w+/g` extraction). -/
def wfTag (t : List Char) : Bool := !t.isEmpty && t.all isWordC

/-- The well-formedness conditions under which encoding with `formatEntry`
and decoding with `decodeLine` is the identity: fixed-width date and time
fields, a trimmed description that contains no tag token, no pipe, no line
terminator and no case-insensitive occurrence of either marker literal, word
tags, the break flag synchronised with what the decoder will infer, and the
stable id derived from the time fields. -/
def wellFormedEntry (e : TimeEntry) : Bool :=
  wfDate e.date && wfTime e.startTime && wfTime e.endTime &&
  (trimList e.description == e.description) &&
  (findTags e.description == []) &&
  !(e.description.contains '\n') && !(e.description.contains '\r') &&
  !(e.description.contains '|') &&
  !csContains pomChars (lowerList e.description) &&
  !csContains brkChars (lowerList e.description) &&
  e.tags.all wfTag &&
  (e.isBreak ==
    ((lowerList e.description == breakWord) && e.tags.isEmpty && !e.isPomodoro)) &&
  (e.id == generateStableId e.date e.startTime e.endTime)

/-- The break predicate exactly as claim C8 words it: computed on the text
remaining after tag extraction (spec-following definition, kept for
comparison against the code's `parseDescription`, which tests the raw text
before tag extraction instead). -/
def claimBreakPred (desc : List Char) : Bool :=
  (trimList (lowerList (stripTags desc)) == breakWord) ||
  csContains brkChars (lowerList (stripTags desc))

theorem removeAllCIF_fuel (p : List Char) :
    ∀ (m n : Nat) (l : List Char), l.length ≤ m → l.length ≤ n →
      removeAllCIF p m l = removeAllCIF p n l := by
  intro m
  induction m with
  | zero =>
    intro n l hm hn
    cases l with
    | nil => cases n <;> rfl
    | cons c rest => simp at hm
  | succ m ih =>
    intro n l hm hn
    cases l with
    | nil => cases n <;> rfl
    | cons c rest =>
      cases n with
      | zero => simp at hn
      | succ n' =>
        simp only [removeAllCIF]
        by_cases hb : (!p.isEmpty && ciStarts p (c :: rest)) = true
        · rw [if_pos hb, if_pos hb]
          have hp : 0 < p.length := by
            rcases p with _ | ⟨q, qs⟩
            · simp at hb
            · simp
          have hlen : ((c :: rest).drop p.length).length ≤ rest.length := by
            rw [List.length_drop]
            simp only [List.length_cons]
            omega
          exact ih n' _ (by simp only [List.length_cons] at hm; omega)
            (by simp only [List.length_cons] at hn; omega)
        · rw [if_neg hb, if_neg hb]
          rw [ih n' rest (by simp only [List.length_cons] at hm; omega)
            (by simp only [List.length_cons] at hn; omega)]

theorem removeAllCI_nil (p : List Char) : removeAllCI p [] = [] := rfl

theorem removeAllCI_cons (p : List Char) (c : Char) (rest : List Char) :
    removeAllCI p (c :: rest) =
      if !p.isEmpty && ciStarts p (c :: rest) then
        removeAllCI p ((c :: rest).drop p.length)
      else c :: removeAllCI p rest := by
  show removeAllCIF p (rest.length + 1) (c :: rest) = _
  simp only [removeAllCIF]
  by_cases hb : (!p.isEmpty && ciStarts p (c :: rest)) = true
  · rw [if_pos hb, if_pos hb]
    have hp : 0 < p.length := by
      rcases p with _ | ⟨q, qs⟩
      · simp at hb
      · simp
    apply removeAllCIF_fuel
    · rw [List.length_drop]; simp only [List.length_cons]; omega
    · exact Nat.le_refl _
  · rw [if_neg hb, if_neg hb]
    rfl

theorem findTagsF_fuel :
    ∀ (m n : Nat) (l : List Char), l.length ≤ m → l.length ≤ n →
      findTagsF m l = findTagsF n l := by
  intro m
  induction m with
  | zero =>
    intro n l hm hn
    cases l with
    | nil => cases n <;> rfl
    | cons c rest => simp at hm
  | succ m ih =>
    intro n l hm hn
    cases l with
    | nil => cases n <;> rfl
    | cons c rest =>
      cases n with
      | zero => simp at hn
      | succ n' =>
        have hm' : rest.length ≤ m := by simp only [List.length_cons] at hm; omega
        have hn' : rest.length ≤ n' := by simp only [List.length_cons] at hn; omega
        have hd : (rest.dropWhile isWordC).length ≤ rest.length :=
          (List.dropWhile_sublist isWordC).length_le
        simp only [findTagsF]
        by_cases hc : (c == '#') = true
        · rw [if_pos hc, if_pos hc]
          by_cases hw : (rest.takeWhile isWordC).isEmpty = true
          · rw [if_pos hw, if_pos hw, ih n' rest hm' hn']
          · rw [if_neg hw, if_neg hw, ih n' _ (by omega) (by omega)]
        · rw [if_neg hc, if_neg hc, ih n' rest hm' hn']

theorem findTags_nil : findTags [] = [] := rfl

theorem findTags_cons (c : Char) (rest : List Char) :
    findTags (c :: rest) =
      if c == '#' then
        if (rest.takeWhile isWordC).isEmpty then findTags rest
        else rest.takeWhile isWordC :: findTags (rest.dropWhile isWordC)
      else findTags rest := by
  show findTagsF (rest.length + 1) (c :: rest) = _
  have hd : (rest.dropWhile isWordC).length ≤ rest.length :=
    (List.dropWhile_sublist isWordC).length_le
  simp only [findTagsF]
  by_cases hc : (c == '#') = true
  · rw [if_pos hc, if_pos hc]
    by_cases hw : (rest.takeWhile isWordC).isEmpty = true
    · rw [if_pos hw, if_pos hw]
      rfl
    · rw [if_neg hw, if_neg hw,
        findTagsF_fuel rest.length _ _ (by omega) (Nat.le_refl _)]
      rfl
  · rw [if_neg hc, if_neg hc]
    rfl

theorem stripTagsF_fuel :
    ∀ (m n : Nat) (l : List Char), l.length ≤ m → l.length ≤ n →
      stripTagsF m l = stripTagsF n l := by
  intro m
  induction m with
  | zero =>
    intro n l hm hn
    cases l with
    | nil => cases n <;> rfl
    | cons c rest => simp at hm
  | succ m ih =>
    intro n l hm hn
    cases l with
    | nil => cases n <;> rfl
    | cons c rest =>
      cases n with
      | zero => simp at hn
      | succ n' =>
        have hm' : rest.length ≤ m := by simp only [List.length_cons] at hm; omega
        have hn' : rest.length ≤ n' := by simp only [List.length_cons] at hn; omega
        have hd : (rest.dropWhile isWordC).length ≤ rest.length :=
          (List.dropWhile_sublist isWordC).length_le
        simp only [stripTagsF]
        by_cases hc : (c == '#') = true
        · rw [if_pos hc, if_pos hc]
          by_cases hw : (rest.takeWhile isWordC).isEmpty = true
          · rw [if_pos hw, if_pos hw, ih n' rest hm' hn']
          · rw [if_neg hw, if_neg hw, ih n' _ (by omega) (by omega)]
        · rw [if_neg hc, if_neg hc, ih n' rest hm' hn']

theorem stripTags_nil : stripTags [] = [] := rfl

theorem stripTags_cons (c : Char) (rest : List Char) :
    stripTags (c :: rest) =
      if c == '#' then
        if (rest.takeWhile isWordC).isEmpty then c :: stripTags rest
        else stripTags (rest.dropWhile isWordC)
      else c :: stripTags rest := by
  show stripTagsF (rest.length + 1) (c :: rest) = _
  have hd : (rest.dropWhile isWordC).length ≤ rest.length :=
    (List.dropWhile_sublist isWordC).length_le
  simp only [stripTagsF]
  by_cases hc : (c == '#') = true
  · rw [if_pos hc, if_pos hc]
    by_cases hw : (rest.takeWhile isWordC).isEmpty = true
    · rw [if_pos hw, if_pos hw]
      rfl
    · rw [if_neg hw, if_neg hw,
        stripTagsF_fuel rest.length _ _ (by omega) (Nat.le_refl _)]
      rfl
  · rw [if_neg hc, if_neg hc]
    rfl

theorem keep_digit {c : Char} (h : isDigitC c = true) : keepIdC c = true := by
  have h1 : c ≠ ':' := fun hc => absurd (hc ▸ h) (by decide)
  have h2 : c ≠ '-' := fun hc => absurd (hc ▸ h) (by decide)
  simp [keepIdC, h1, h2]

theorem wfDate_shape {d : List Char} (h : wfDate d = true) :
    ∃ y1 y2 y3 y4 m1 m2 dd1 dd2,
      isDigitC y1 = true ∧ isDigitC y2 = true ∧ isDigitC y3 = true ∧
      isDigitC y4 = true ∧ isDigitC m1 = true ∧ isDigitC m2 = true ∧
      isDigitC dd1 = true ∧ isDigitC dd2 = true ∧
      d = [y1, y2, y3, y4, '-', m1, m2, '-', dd1, dd2] := by
  rcases d with _ | ⟨y1, _ | ⟨y2, _ | ⟨y3, _ | ⟨y4, _ | ⟨s1, _ | ⟨m1, _ | ⟨m2, _ | ⟨s2, _ | ⟨dd1, _ | ⟨dd2, _ | ⟨x, rest⟩⟩⟩⟩⟩⟩⟩⟩⟩⟩⟩ <;>
    simp only [wfDate, Bool.and_eq_true, beq_iff_eq, and_assoc,
      Bool.false_eq_true] at h
  obtain ⟨h1, h2, h3, h4, h5, h6, h7, h8, h9, h10⟩ := h
  subst h5
  subst h8
  exact ⟨y1, y2, y3, y4, m1, m2, dd1, dd2, h1, h2, h3, h4, h6, h7, h9, h10, rfl⟩

theorem wfTime_shape {t : List Char} (h : wfTime t = true) :
    ∃ h1 h2 m1 m2,
      isDigitC h1 = true ∧ isDigitC h2 = true ∧ isDigitC m1 = true ∧
      isDigitC m2 = true ∧ t = [h1, h2, ':', m1, m2] := by
  rcases t with _ | ⟨h1, _ | ⟨h2, _ | ⟨co, _ | ⟨m1, _ | ⟨m2, _ | ⟨x, rest⟩⟩⟩⟩⟩⟩ <;>
    simp only [wfTime, Bool.and_eq_true, beq_iff_eq, and_assoc,
      Bool.false_eq_true] at h
  obtain ⟨k1, k2, k3, k4, k5⟩ := h
  subst k3
  exact ⟨h1, h2, m1, m2, k1, k2, k4, k5, rfl⟩

theorem generateStableId_shape
    {y1 y2 y3 y4 m1 m2 dd1 dd2 h1 h2 hm1 hm2 g1 g2 gm1 gm2 : Char}
    (k1 : isDigitC y1 = true) (k2 : isDigitC y2 = true) (k3 : isDigitC y3 = true)
    (k4 : isDigitC y4 = true) (k5 : isDigitC m1 = true) (k6 : isDigitC m2 = true)
    (k7 : isDigitC dd1 = true) (k8 : isDigitC dd2 = true)
    (k9 : isDigitC h1 = true) (k10 : isDigitC h2 = true)
    (k11 : isDigitC hm1 = true) (k12 : isDigitC hm2 = true)
    (k13 : isDigitC g1 = true) (k14 : isDigitC g2 = true)
    (k15 : isDigitC gm1 = true) (k16 : isDigitC gm2 = true) :
    generateStableId [y1, y2, y3, y4, '-', m1, m2, '-', dd1, dd2]
      [h1, h2, ':', hm1, hm2] [g1, g2, ':', gm1, gm2] =
    [y1, y2, y3, y4, m1, m2, dd1, dd2, '_', h1, h2, hm1, hm2,
     '_', g1, g2, gm1, gm2] := by
  unfold generateStableId
  simp only [List.cons_append, List.nil_append]
  rw [List.filter_cons_of_pos (keep_digit k1), List.filter_cons_of_pos (keep_digit k2),
      List.filter_cons_of_pos (keep_digit k3), List.filter_cons_of_pos (keep_digit k4),
      List.filter_cons_of_neg (by decide),
      List.filter_cons_of_pos (keep_digit k5), List.filter_cons_of_pos (keep_digit k6),
      List.filter_cons_of_neg (by decide),
      List.filter_cons_of_pos (keep_digit k7), List.filter_cons_of_pos (keep_digit k8),
      List.filter_cons_of_pos (by decide),
      List.filter_cons_of_pos (keep_digit k9), List.filter_cons_of_pos (keep_digit k10),
      List.filter_cons_of_neg (by decide),
      List.filter_cons_of_pos (keep_digit k11), List.filter_cons_of_pos (keep_digit k12),
      List.filter_cons_of_pos (by decide),
      List.filter_cons_of_pos (keep_digit k13), List.filter_cons_of_pos (keep_digit k14),
      List.filter_cons_of_neg (by decide),
      List.filter_cons_of_pos (keep_digit k15), List.filter_cons_of_pos (keep_digit k16),
      List.filter_nil]

theorem findIdxO_eq_none {α : Type} {p : α → Bool} {l : List α}
    (h : ∀ x ∈ l, p x = false) : findIdxO p l = none := by
  induction l with
  | nil => rfl
  | cons a as ih =>
    have ha : p a = false := h a (List.mem_cons_self a as)
    have hrest : findIdxO p as = none :=
      ih (fun x hx => h x (List.mem_cons_of_mem a hx))
    simp [findIdxO, ha, hrest]

theorem ws_ne_hash {c : Char} (h : isWsC c = true) : (c == '#') = false := by
  simp only [beq_eq_false_iff_ne, ne_eq]
  intro hc
  exact absurd (hc ▸ h) (by decide)

theorem ws_ne_lparen {c : Char} (h : isWsC c = true) : c ≠ '(' :=
  fun hc => absurd (hc ▸ h) (by decide)

theorem digit_not_ws {c : Char} (h : isDigitC c = true) : isWsC c = false := by
  rw [Bool.eq_false_iff]
  intro hw
  simp only [isDigitC, Bool.and_eq_true, decide_eq_true_eq] at h
  simp only [isWsC, Bool.or_eq_true, beq_iff_eq] at hw
  omega

theorem word_not_ws {c : Char} (h : isWordC c = true) : isWsC c = false := by
  rw [Bool.eq_false_iff]
  intro hw
  simp only [isWordC, Bool.or_eq_true, Bool.and_eq_true, decide_eq_true_eq,
    beq_iff_eq] at h
  simp only [isWsC, Bool.or_eq_true, beq_iff_eq] at hw
  omega

theorem word_ne_lparen {c : Char} (h : isWordC c = true) : c ≠ '(' :=
  fun hc => absurd (hc ▸ h) (by decide)

theorem word_ne_hash {c : Char} (h : isWordC c = true) : c ≠ '#' :=
  fun hc => absurd (hc ▸ h) (by decide)

theorem jsLower_ws (c : Char) : isWsC (jsLower c) = isWsC c := by
  unfold jsLower
  split <;> rfl

theorem jsLower_eq_lparen {c : Char} : jsLower c = '(' ↔ c = '(' := by
  unfold jsLower
  split <;> first | exact Iff.rfl | decide

theorem jsLower_eq_hash {c : Char} : jsLower c = '#' ↔ c = '#' := by
  unfold jsLower
  split <;> first | exact Iff.rfl | decide

theorem csStarts_refl_append (p b : List Char) : csStarts p (p ++ b) = true := by
  induction p with
  | nil => rfl
  | cons q ps ih => simp [csStarts, ih]

theorem csContains_of_append (p a b : List Char) :
    csContains p (a ++ (p ++ b)) = true := by
  induction a with
  | nil =>
    rcases hp : p ++ b with _ | ⟨c, rest⟩
    · rcases p with _ | ⟨q, qs⟩
      · simp [csContains]
      · simp at hp
    · simp only [List.nil_append, hp, csContains]
      rw [← hp, csStarts_refl_append]
      simp
  | cons x a' ih => simp [csContains, ih]

theorem csStarts_length {p l : List Char} (h : csStarts p l = true) :
    p.length ≤ l.length := by
  induction p generalizing l with
  | nil => simp
  | cons q ps ih =>
    rcases l with _ | ⟨c, cs⟩
    · simp [csStarts] at h
    · simp only [csStarts, Bool.and_eq_true] at h
      simpa using ih h.2

theorem csStarts_append_sep {p x y : List Char} {s : Char}
    (h : csStarts p (x ++ s :: y) = true) : csStarts p x = true ∨ s ∈ p := by
  induction p generalizing x with
  | nil => left; rfl
  | cons q ps ih =>
    rcases x with _ | ⟨c, xs⟩
    · simp only [List.nil_append, csStarts, Bool.and_eq_true, beq_iff_eq] at h
      right
      rw [h.1]
      exact List.mem_cons_self _ _
    · simp only [List.cons_append, csStarts, Bool.and_eq_true] at h
      rcases ih h.2 with h' | h'
      · left; simp [csStarts, h.1, h']
      · right; exact List.mem_cons_of_mem _ h'

theorem csContains_cons_false {p : List Char} {c : Char} {rest : List Char}
    (h : csContains p (c :: rest) = false) :
    csStarts p (c :: rest) = false ∧ csContains p rest = false := by
  simpa [csContains] using h

theorem csContains_append_sep_false {p x y : List Char} {s : Char}
    (hx : csContains p x = false) (hy : csContains p (s :: y) = false)
    (hs : s ∉ p) : csContains p (x ++ s :: y) = false := by
  induction x with
  | nil => simpa using hy
  | cons c x' ih =>
    have hx' := csContains_cons_false hx
    simp only [List.cons_append, csContains, Bool.or_eq_false_iff]
    refine ⟨?_, ih hx'.2⟩
    rw [Bool.eq_false_iff]
    intro hst
    rcases csStarts_append_sep (x := c :: x') hst with h' | h'
    · rw [hx'.1] at h'
      exact Bool.false_ne_true h'
    · exact hs h'

theorem csContains_head_ne {q : Char} {ps l : List Char}
    (h : ∀ c ∈ l, c ≠ q) : csContains (q :: ps) l = false := by
  induction l with
  | nil => rfl
  | cons c rest ih =>
    simp only [csContains, Bool.or_eq_false_iff, csStarts]
    constructor
    · have : (q == c) = false := by
        simp only [beq_eq_false_iff_ne, ne_eq]
        intro hq
        exact h c (List.mem_cons_self _ _) hq.symm
      simp [this]
    · exact ih (fun c' hc' => h c' (List.mem_cons_of_mem _ hc'))

theorem csStarts_map {f : Char → Char} {p l : List Char}
    (h : csStarts p l = true) : csStarts (p.map f) (l.map f) = true := by
  induction p generalizing l with
  | nil => rfl
  | cons q ps ih =>
    rcases l with _ | ⟨c, cs⟩
    · simp [csStarts] at h
    · simp only [csStarts, Bool.and_eq_true, beq_iff_eq] at h
      simp only [List.map_cons, csStarts, Bool.and_eq_true, beq_iff_eq]
      exact ⟨congrArg f h.1, ih h.2⟩

theorem csContains_map {f : Char → Char} {p l : List Char}
    (h : csContains p l = true) : csContains (p.map f) (l.map f) = true := by
  induction l with
  | nil =>
    rcases p with _ | ⟨q, qs⟩ <;> simp_all [csContains]
  | cons c rest ih =>
    simp only [csContains, Bool.or_eq_true] at h
    rcases h with h | h
    · have := csStarts_map (f := f) h
      simp only [List.map_cons] at this ⊢
      simp [csContains, this]
    · simp only [List.map_cons, csContains, Bool.or_eq_true]
      right
      exact ih h

theorem dropWhile_eq_self_of_length {α : Type} {p : α → Bool} {l : List α}
    (h : (l.dropWhile p).length = l.length) : l.dropWhile p = l := by
  cases l with
  | nil => rfl
  | cons a as =>
    by_cases hp : p a = true
    · exfalso
      rw [List.dropWhile_cons, if_pos hp] at h
      have hle := (List.dropWhile_sublist (l := as) p).length_le
      simp only [List.length_cons] at h
      omega
    · rw [List.dropWhile_cons, if_neg hp]

theorem trimLeft_length_le (l : List Char) : (trimLeft l).length ≤ l.length :=
  (List.dropWhile_sublist isWsC).length_le

theorem trimRight_length_le (l : List Char) : (trimRight l).length ≤ l.length := by
  unfold trimRight
  rw [List.length_reverse]
  calc (l.reverse.dropWhile isWsC).length ≤ l.reverse.length :=
        (List.dropWhile_sublist isWsC).length_le
    _ = l.length := List.length_reverse l

theorem trimLeft_of_trimList {l : List Char} (h : trimList l = l) :
    trimLeft l = l := by
  have h1 : (trimList l).length = l.length := by rw [h]
  have h2 : (trimList l).length ≤ (trimLeft l).length := trimRight_length_le _
  have h3 : (trimLeft l).length ≤ l.length := trimLeft_length_le l
  have h4 : (trimLeft l).length = l.length := by omega
  unfold trimLeft at h4 ⊢
  exact dropWhile_eq_self_of_length h4

theorem trimRight_of_trimList {l : List Char} (h : trimList l = l) :
    trimRight l = l := by
  have hL := trimLeft_of_trimList h
  unfold trimList at h
  rw [hL] at h
  exact h

theorem trimRight_rev {l : List Char} :
    trimRight l = l ↔ l.reverse.dropWhile isWsC = l.reverse := by
  unfold trimRight
  constructor
  · intro h
    have := congrArg List.reverse h
    simpa using this
  · intro h
    rw [h, List.reverse_reverse]

theorem trimLeft_cons_of_neg {c : Char} {l : List Char} (h : isWsC c = false) :
    trimLeft (c :: l) = c :: l := by
  unfold trimLeft
  rw [List.dropWhile_cons, if_neg (by simp [h])]

theorem trimLeft_cons_of_ws {c : Char} {l : List Char} (h : isWsC c = true) :
    trimLeft (c :: l) = trimLeft l := by
  unfold trimLeft
  rw [List.dropWhile_cons, if_pos h]

theorem trimList_cons_of_ws {c : Char} {l : List Char} (h : isWsC c = true) :
    trimList (c :: l) = trimList l := by
  unfold trimList
  rw [trimLeft_cons_of_ws h]

theorem trimRight_append_ws {a s : List Char} (hs : ∀ c ∈ s, isWsC c = true) :
    trimRight (a ++ s) = trimRight a := by
  unfold trimRight
  rw [List.reverse_append,
    List.dropWhile_append_of_pos (fun x hx => hs x (List.mem_reverse.mp hx))]

theorem trimRight_concat {a : List Char} {b : Char} (hb : isWsC b = false) :
    trimRight (a ++ [b]) = a ++ [b] := by
  unfold trimRight
  rw [List.reverse_append]
  simp only [List.reverse_cons, List.reverse_nil, List.nil_append,
    List.cons_append]
  rw [List.dropWhile_cons, if_neg (by simp [hb])]
  simp

theorem last_not_ws_of_trimRight {L : List Char} {b : Char}
    (h : trimRight (L ++ [b]) = L ++ [b]) : isWsC b = false := by
  by_cases hb : isWsC b = true
  · exfalso
    have h' := trimRight_rev.mp h
    rw [List.reverse_append] at h'
    simp only [List.reverse_cons, List.reverse_nil, List.nil_append,
      List.cons_append] at h'
    rw [List.dropWhile_cons, if_pos hb] at h'
    have hle := (List.dropWhile_sublist (l := L.reverse) isWsC).length_le
    have := congrArg List.length h'
    simp only [List.length_cons] at this
    omega
  · simpa using hb

theorem trimRight_append_cons {B fd : List Char} (hfd : trimRight fd = fd)
    (hne : fd ≠ []) : trimRight (B ++ ' ' :: fd) = B ++ ' ' :: fd := by
  rcases List.eq_nil_or_concat fd with rfl | ⟨L, b, rfl⟩
  · exact absurd rfl hne
  · rw [List.concat_eq_append] at hfd ⊢
    have hb : isWsC b = false := last_not_ws_of_trimRight hfd
    have hsplit : B ++ ' ' :: (L ++ [b]) = (B ++ ' ' :: L) ++ [b] := by simp
    rw [hsplit, trimRight_concat hb]

theorem mem_dropWhile {α : Type} {p : α → Bool} {c : α} {l : List α}
    (hc : c ∈ l) (hp : p c = false) : c ∈ l.dropWhile p := by
  induction l with
  | nil => simp at hc
  | cons a as ih =>
    by_cases ha : p a = true
    · rw [List.dropWhile_cons, if_pos ha]
      rcases List.mem_cons.mp hc with rfl | h'
      · rw [hp] at ha; exact absurd ha (by simp)
      · exact ih h'
    · rw [List.dropWhile_cons, if_neg ha]
      exact hc

theorem mem_trimList {c : Char} {l : List Char} (hc : c ∈ l)
    (hp : isWsC c = false) : c ∈ trimList l := by
  unfold trimList trimRight trimLeft
  have h1 : c ∈ List.dropWhile isWsC l := mem_dropWhile hc hp
  have h2 : c ∈ (List.dropWhile isWsC l).reverse := List.mem_reverse.mpr h1
  have h3 : c ∈ List.dropWhile isWsC (List.dropWhile isWsC l).reverse :=
    mem_dropWhile h2 hp
  exact List.mem_reverse.mpr h3

theorem findTags_cons_of_ne {c : Char} {l : List Char} (hc : (c == '#') = false) :
    findTags (c :: l) = findTags l := by
  rw [findTags_cons, if_neg (by simp [hc])]

theorem stripTags_cons_of_ne {c : Char} {l : List Char} (hc : (c == '#') = false) :
    stripTags (c :: l) = c :: stripTags l := by
  rw [stripTags_cons, if_neg (by simp [hc])]

theorem findTags_hash_nil {d' : List Char} (h : findTags ('#' :: d') = []) :
    (d'.takeWhile isWordC).isEmpty = true ∧ findTags d' = [] := by
  rw [findTags_cons, if_pos (by decide)] at h
  by_cases hw : (d'.takeWhile isWordC).isEmpty = true
  · rw [if_pos hw] at h
    exact ⟨hw, h⟩
  · rw [if_neg hw] at h
    exact absurd h (by simp)

theorem takeWhile_empty_of_append_sep {d' x : List Char}
    (hw : (d'.takeWhile isWordC).isEmpty = true) :
    ((d' ++ ' ' :: x).takeWhile isWordC).isEmpty = true := by
  rcases d' with _ | ⟨e, d''⟩
  · rw [List.nil_append, List.takeWhile_cons, if_neg (by decide)]
    rfl
  · have he : isWordC e = false := by
      by_cases hee : isWordC e = true
      · rw [List.takeWhile_cons, if_pos hee] at hw
        simp at hw
      · simpa using hee
    rw [List.cons_append, List.takeWhile_cons, if_neg (by simp [he])]
    rfl

theorem findTags_append_sep {d x : List Char} (hd : findTags d = []) :
    findTags (d ++ ' ' :: x) = findTags x := by
  induction d with
  | nil =>
    rw [List.nil_append]
    exact findTags_cons_of_ne (by decide)
  | cons c d' ih =>
    by_cases hc : (c == '#') = true
    · have hcc : c = '#' := by simpa using hc
      subst hcc
      obtain ⟨hw, hd'⟩ := findTags_hash_nil hd
      rw [List.cons_append, findTags_cons, if_pos (by decide),
        if_pos (takeWhile_empty_of_append_sep hw)]
      exact ih hd'
    · have hcf : (c == '#') = false := by simpa using hc
      have hd' : findTags d' = [] := by rwa [findTags_cons_of_ne hcf] at hd
      rw [List.cons_append, findTags_cons_of_ne hcf]
      exact ih hd'

theorem stripTags_eq_self {d : List Char} (hd : findTags d = []) :
    stripTags d = d := by
  induction d with
  | nil => rfl
  | cons c d' ih =>
    by_cases hc : (c == '#') = true
    · have hcc : c = '#' := by simpa using hc
      subst hcc
      obtain ⟨hw, hd'⟩ := findTags_hash_nil hd
      rw [stripTags_cons, if_pos (by decide), if_pos hw, ih hd']
    · have hcf : (c == '#') = false := by simpa using hc
      have hd' : findTags d' = [] := by rwa [findTags_cons_of_ne hcf] at hd
      rw [stripTags_cons_of_ne hcf, ih hd']

theorem stripTags_append_sep {d x : List Char} (hd : findTags d = []) :
    stripTags (d ++ ' ' :: x) = d ++ ' ' :: stripTags x := by
  induction d with
  | nil =>
    rw [List.nil_append]
    exact stripTags_cons_of_ne (by decide)
  | cons c d' ih =>
    by_cases hc : (c == '#') = true
    · have hcc : c = '#' := by simpa using hc
      subst hcc
      obtain ⟨hw, hd'⟩ := findTags_hash_nil hd
      rw [List.cons_append, stripTags_cons, if_pos (by decide),
        if_pos (takeWhile_empty_of_append_sep hw), ih hd']
      rfl
    · have hcf : (c == '#') = false := by simpa using hc
      have hd' : findTags d' = [] := by rwa [findTags_cons_of_ne hcf] at hd
      rw [List.cons_append, stripTags_cons_of_ne hcf, ih hd']
      rfl

theorem intercalate_cons₂ {α : Type} (sep : List α) (x y : List α)
    (zs : List (List α)) :
    List.intercalate sep (x :: y :: zs) = x ++ sep ++ List.intercalate sep (y :: zs) := by
  simp [List.intercalate, List.intersperse_cons₂, List.append_assoc]

theorem tagsChunk_eq_intercalate :
    ∀ (t : List Char) (ts : List (List Char)),
      ' ' :: List.intercalate [' '] ((t :: ts).map (fun t => '#' :: t)) =
        tagsChunk (t :: ts)
  | t, [] => by
    simp [List.intercalate, tagsChunk]
  | t, t2 :: ts2 => by
    have ih := tagsChunk_eq_intercalate t2 ts2
    simp only [List.map_cons] at ih ⊢
    rw [intercalate_cons₂]
    rw [show tagsChunk (t :: t2 :: ts2) = ' ' :: '#' :: (t ++ tagsChunk (t2 :: ts2)) from rfl]
    rw [← ih]
    simp [List.append_assoc]

theorem chunk_pc_shape (ts : List (List Char)) (pc : List Char)
    (hpc : pc = [] ∨ pc = ' ' :: pomChars) :
    tagsChunk ts ++ pc = [] ∨ ∃ y, tagsChunk ts ++ pc = ' ' :: y := by
  cases ts with
  | nil =>
    rcases hpc with rfl | rfl
    · left; rfl
    · right; exact ⟨pomChars, rfl⟩
  | cons t ts' =>
    right
    exact ⟨'#' :: (t ++ tagsChunk ts') ++ pc, rfl⟩

theorem takeWhile_word_chunk (ts : List (List Char)) (pc : List Char)
    (hpc : pc = [] ∨ pc = ' ' :: pomChars) :
    (tagsChunk ts ++ pc).takeWhile isWordC = [] ∧
    (tagsChunk ts ++ pc).dropWhile isWordC = tagsChunk ts ++ pc := by
  rcases chunk_pc_shape ts pc hpc with h | ⟨y, h⟩
  · rw [h]
    exact ⟨rfl, rfl⟩
  · rw [h]
    constructor
    · rw [List.takeWhile_cons, if_neg (by decide)]
    · rw [List.dropWhile_cons, if_neg (by decide)]

theorem lower_pom : lowerList pomChars = pomChars := by decide

theorem lower_brk : lowerList brkChars = brkChars := by decide

theorem pom_head : pomChars = '(' :: "pomodoro)".data := rfl

theorem brk_head : brkChars = '(' :: "break)".data := rfl

theorem csContains_cons_of_head_ne {q c : Char} {ps rest : List Char}
    (h : (q == c) = false) :
    csContains (q :: ps) (c :: rest) = csContains (q :: ps) rest := by
  simp [csContains, csStarts, h]

theorem wfTag_spec {t : List Char} (h : wfTag t = true) :
    t ≠ [] ∧ ∀ c ∈ t, isWordC c = true := by
  simp only [wfTag, Bool.and_eq_true, Bool.not_eq_true', List.all_eq_true] at h
  refine ⟨?_, h.2⟩
  rcases t with _ | ⟨c, t'⟩
  · simp at h
  · intro hc
    exact List.noConfusion hc

theorem findTags_chunk :
    ∀ (ts : List (List Char)) (pc : List Char),
      (∀ t ∈ ts, wfTag t = true) → (pc = [] ∨ pc = ' ' :: pomChars) →
      findTags (tagsChunk ts ++ pc) = ts := by
  intro ts
  induction ts with
  | nil =>
    intro pc _ hpc
    rcases hpc with rfl | rfl
    · rfl
    · decide
  | cons t ts' ih =>
    intro pc hts hpc
    obtain ⟨htne, htw⟩ := wfTag_spec (hts t (List.mem_cons_self _ _))
    have hts' : ∀ u ∈ ts', wfTag u = true :=
      fun u hu => hts u (List.mem_cons_of_mem _ hu)
    show findTags ((' ' :: '#' :: (t ++ tagsChunk ts')) ++ pc) = t :: ts'
    rw [List.cons_append, List.cons_append, findTags_cons_of_ne (by decide),
      findTags_cons, if_pos (by decide), List.append_assoc]
    obtain ⟨htk, hdr⟩ := takeWhile_word_chunk ts' pc hpc
    have htake : (t ++ (tagsChunk ts' ++ pc)).takeWhile isWordC = t := by
      rw [List.takeWhile_append_of_pos htw, htk, List.append_nil]
    have hdrop : (t ++ (tagsChunk ts' ++ pc)).dropWhile isWordC =
        tagsChunk ts' ++ pc := by
      rw [List.dropWhile_append_of_pos htw, hdr]
    rw [if_neg (by rw [htake]; simpa using htne), htake, hdrop, ih pc hts' hpc]

theorem stripTags_chunk :
    ∀ (ts : List (List Char)) (pc : List Char),
      (∀ t ∈ ts, wfTag t = true) → (pc = [] ∨ pc = ' ' :: pomChars) →
      stripTags (tagsChunk ts ++ pc) = List.replicate ts.length ' ' ++ pc := by
  intro ts
  induction ts with
  | nil =>
    intro pc _ hpc
    rcases hpc with rfl | rfl
    · rfl
    · decide
  | cons t ts' ih =>
    intro pc hts hpc
    obtain ⟨htne, htw⟩ := wfTag_spec (hts t (List.mem_cons_self _ _))
    have hts' : ∀ u ∈ ts', wfTag u = true :=
      fun u hu => hts u (List.mem_cons_of_mem _ hu)
    show stripTags ((' ' :: '#' :: (t ++ tagsChunk ts')) ++ pc) =
      List.replicate (ts'.length + 1) ' ' ++ pc
    rw [List.cons_append, List.cons_append, stripTags_cons_of_ne (by decide),
      stripTags_cons, if_pos (by decide), List.append_assoc]
    obtain ⟨htk, hdr⟩ := takeWhile_word_chunk ts' pc hpc
    have htake : (t ++ (tagsChunk ts' ++ pc)).takeWhile isWordC = t := by
      rw [List.takeWhile_append_of_pos htw, htk, List.append_nil]
    have hdrop : (t ++ (tagsChunk ts' ++ pc)).dropWhile isWordC =
        tagsChunk ts' ++ pc := by
      rw [List.dropWhile_append_of_pos htw, hdr]
    rw [if_neg (by rw [htake]; simpa using htne), hdrop, ih pc hts' hpc,
      List.replicate_succ]
    rfl

theorem csStarts_head_ne {q c : Char} {ps cs : List Char} (h : (q == c) = false) :
    csStarts (q :: ps) (c :: cs) = false := by
  simp [csStarts, h]

theorem removeAllCI_cons_keep {p : List Char} {c : Char} {rest : List Char}
    (h : ciStarts p (c :: rest) = false) :
    removeAllCI p (c :: rest) = c :: removeAllCI p rest := by
  rw [removeAllCI_cons, if_neg (by simp [h])]

theorem ciStarts_pom_ws {c : Char} {rest : List Char} (h : jsLower c ≠ '(') :
    ciStarts pomChars (c :: rest) = false := by
  unfold ciStarts
  rw [lower_pom, pom_head]
  show csStarts ('(' :: "pomodoro)".data) (jsLower c :: lowerList rest) = false
  exact csStarts_head_ne (by simpa using fun hx => h hx.symm)

theorem ciStarts_brk_ws {c : Char} {rest : List Char} (h : jsLower c ≠ '(') :
    ciStarts brkChars (c :: rest) = false := by
  unfold ciStarts
  rw [lower_brk, brk_head]
  show csStarts ('(' :: "break)".data) (jsLower c :: lowerList rest) = false
  exact csStarts_head_ne (by simpa using fun hx => h hx.symm)

theorem parseDescription_ws_cons {c : Char} {l : List Char} (h : isWsC c = true) :
    parseDescription (c :: l) = parseDescription l := by
  have hlamb : jsLower c ≠ '(' := fun hx => ws_ne_lparen h (jsLower_eq_lparen.mp hx)
  have hlparen : c ≠ '(' := ws_ne_lparen h
  have hhash : (c == '#') = false := ws_ne_hash h
  have hlws : isWsC (jsLower c) = true := by rw [jsLower_ws]; exact h
  simp only [parseDescription, ParsedDesc.mk.injEq]
  refine ⟨?_, ?_, ?_, ?_⟩
  · rw [stripTags_cons_of_ne hhash,
      removeAllCI_cons_keep (ciStarts_pom_ws hlamb),
      removeAllCI_cons_keep (ciStarts_brk_ws hlamb),
      trimList_cons_of_ws h]
  · exact findTags_cons_of_ne hhash
  · rw [pom_head,
      csContains_cons_of_head_ne (by simpa using fun hx => hlparen hx.symm)]
  · rw [show lowerList (c :: l) = jsLower c :: lowerList l from List.map_cons jsLower c l,
      trimList_cons_of_ws hlws, brk_head,
      csContains_cons_of_head_ne (by simpa using fun hx => hlamb hx.symm)]

theorem parseDescription_dropWhile (l : List Char) :
    parseDescription (List.dropWhile isWsC l) = parseDescription l := by
  induction l with
  | nil => rfl
  | cons c rest ih =>
    by_cases hc : isWsC c = true
    · rw [List.dropWhile_cons, if_pos hc, ih, parseDescription_ws_cons hc]
    · rw [List.dropWhile_cons, if_neg hc]

theorem removeAllCI_of_not_contains {p l : List Char}
    (h : csContains (lowerList p) (lowerList l) = false) :
    removeAllCI p l = l := by
  induction l with
  | nil => rfl
  | cons c rest ih =>
    rw [show lowerList (c :: rest) = jsLower c :: lowerList rest from
      List.map_cons jsLower c rest] at h
    obtain ⟨hs, hrest⟩ := csContains_cons_false h
    have hci : ciStarts p (c :: rest) = false := by
      unfold ciStarts
      rw [show lowerList (c :: rest) = jsLower c :: lowerList rest from
        List.map_cons jsLower c rest]
      exact hs
    rw [removeAllCI_cons_keep hci, ih hrest]

theorem removeAllCI_append {p a b : List Char}
    (ha : csContains (lowerList p) (lowerList a) = false)
    (hsp : ' ' ∉ lowerList p)
    (hb : b = [] ∨ ∃ b₂, b = ' ' :: b₂) :
    removeAllCI p (a ++ b) = a ++ removeAllCI p b := by
  induction a with
  | nil => rfl
  | cons c a' ih =>
    rw [show lowerList (c :: a') = jsLower c :: lowerList a' from
      List.map_cons jsLower c a'] at ha
    obtain ⟨hs, hrest⟩ := csContains_cons_false ha
    have hci : ciStarts p ((c :: a') ++ b) = false := by
      unfold ciStarts
      rw [Bool.eq_false_iff]
      intro hst
      rw [show lowerList ((c :: a') ++ b) =
        lowerList (c :: a') ++ lowerList b from List.map_append jsLower _ _] at hst
      rcases hb with rfl | ⟨b₂, rfl⟩
      · rw [show lowerList ([] : List Char) = [] from rfl, List.append_nil] at hst
        rw [show lowerList (c :: a') = jsLower c :: lowerList a' from
          List.map_cons jsLower c a'] at hst
        rw [hst] at hs
        simp at hs
      · rw [show lowerList (' ' :: b₂) = ' ' :: lowerList b₂ from
          List.map_cons jsLower ' ' b₂] at hst
        rcases csStarts_append_sep hst with h' | h'
        · rw [show lowerList (c :: a') = jsLower c :: lowerList a' from
            List.map_cons jsLower c a'] at h'
          rw [h'] at hs
          simp at hs
        · exact hsp h'
    rw [List.cons_append, removeAllCI_cons_keep ?hk, ih hrest]
    · rfl
    case hk =>
      rw [show (c :: (a' ++ b)) = (c :: a') ++ b from rfl]
      exact hci

theorem ws_of_spaceOnly {s : List Char} (h : ∀ c ∈ s, c = ' ') :
    ∀ c ∈ s, isWsC c = true := fun c hc => by rw [h c hc]; decide

theorem contains_lower_spaces_false {p s : List Char}
    (hphead : ∃ ps, lowerList p = '(' :: ps) (hs : ∀ c ∈ s, c = ' ') :
    csContains (lowerList p) (lowerList s) = false := by
  obtain ⟨ps, hp⟩ := hphead
  rw [hp]
  apply csContains_head_ne
  intro c hc
  obtain ⟨x, hx, rfl⟩ := List.mem_map.mp hc
  rw [hs x hx]
  decide

theorem trimList_all_ws {s : List Char} (h : ∀ c ∈ s, isWsC c = true) :
    trimList s = [] := by
  unfold trimList trimLeft
  rw [List.dropWhile_eq_nil_iff.mpr (fun x hx => h x hx)]
  rfl

theorem stripTags_append_chunk {d x : List Char} (hd : findTags d = [])
    (hx : x = [] ∨ ∃ y, x = ' ' :: y) :
    stripTags (d ++ x) = d ++ stripTags x := by
  rcases hx with rfl | ⟨y, rfl⟩
  · rw [List.append_nil, stripTags_eq_self hd, stripTags_nil, List.append_nil]
  · rw [stripTags_append_sep hd, stripTags_cons_of_ne (by decide)]

theorem findTags_append_chunk {d x : List Char} (hd : findTags d = [])
    (hx : x = [] ∨ ∃ y, x = ' ' :: y) :
    findTags (d ++ x) = findTags x := by
  rcases hx with rfl | ⟨y, rfl⟩
  · rw [List.append_nil, hd]
    rfl
  · exact findTags_append_sep hd

theorem spaceOnly_append_cons {S x : List Char} (hS : ∀ c ∈ S, c = ' ') :
    ∃ b₂, S ++ ' ' :: x = ' ' :: b₂ := by
  rcases S with _ | ⟨c, S'⟩
  · exact ⟨x, rfl⟩
  · have hc : c = ' ' := hS c (List.mem_cons_self _ _)
    subst hc
    exact ⟨S' ++ ' ' :: x, rfl⟩

theorem removeAll_desc_spaces {p desc S : List Char}
    (hpd : csContains (lowerList p) (lowerList desc) = false)
    (hphead : ∃ ps, lowerList p = '(' :: ps)
    (hsp : ' ' ∉ lowerList p)
    (hS : ∀ c ∈ S, c = ' ') :
    removeAllCI p (desc ++ S) = desc ++ S := by
  rcases hSs : S with _ | ⟨c, S'⟩
  · rw [List.append_nil]
    exact removeAllCI_of_not_contains hpd
  · have hc : c = ' ' := hS c (by rw [hSs]; exact List.mem_cons_self _ _)
    subst hc
    rw [← hSs]
    have hb : S = [] ∨ ∃ b₂, S = ' ' :: b₂ := Or.inr ⟨S', hSs⟩
    rw [removeAllCI_append hpd hsp hb]
    rw [removeAllCI_of_not_contains (contains_lower_spaces_false hphead (hSs ▸ hS))]

theorem removePom_concrete : removeAllCI pomChars (' ' :: pomChars) = [' '] := by
  decide

theorem removeAll_pom_marker {desc S : List Char}
    (hpd : csContains pomChars (lowerList desc) = false)
    (hS : ∀ c ∈ S, c = ' ') :
    removeAllCI pomChars (desc ++ (S ++ ' ' :: pomChars)) =
      desc ++ (S ++ [' ']) := by
  have hlp : lowerList pomChars = pomChars := lower_pom
  have hpd' : csContains (lowerList pomChars) (lowerList desc) = false := by
    rw [hlp]; exact hpd
  have hphead : ∃ ps, lowerList pomChars = '(' :: ps := ⟨"pomodoro)".data, by rw [hlp]; rfl⟩
  have hsp : ' ' ∉ lowerList pomChars := by rw [hlp]; decide
  obtain ⟨b₂, hb₂⟩ := spaceOnly_append_cons (x := pomChars) hS
  rw [removeAllCI_append hpd' hsp (Or.inr ⟨b₂, hb₂⟩)]
  congr 1
  rw [removeAllCI_append (contains_lower_spaces_false hphead hS) hsp
    (Or.inr ⟨pomChars, rfl⟩)]
  rw [removePom_concrete]

theorem head_not_ws_of_trimmed {c : Char} {d' : List Char}
    (hdt : trimList (c :: d') = c :: d') : isWsC c = false := by
  have hL := trimLeft_of_trimList hdt
  by_cases hcc : isWsC c = true
  · exfalso
    rw [trimLeft_cons_of_ws hcc] at hL
    have h1 := trimLeft_length_le d'
    have h2 := congrArg List.length hL
    simp only [List.length_cons] at h2
    omega
  · simpa using hcc

theorem trimList_desc_spaces {desc S : List Char} (hdt : trimList desc = desc)
    (hS : ∀ c ∈ S, isWsC c = true) : trimList (desc ++ S) = desc := by
  rcases desc with _ | ⟨c, d'⟩
  · rw [List.nil_append]
    exact trimList_all_ws hS
  · have hc : isWsC c = false := head_not_ws_of_trimmed hdt
    unfold trimList
    rw [show (c :: d') ++ S = c :: (d' ++ S) from rfl, trimLeft_cons_of_neg hc,
      show c :: (d' ++ S) = (c :: d') ++ S from rfl, trimRight_append_ws hS]
    exact trimRight_of_trimList hdt

theorem brk_lower_head : ∃ ps, lowerList brkChars = '(' :: ps :=
  ⟨"break)".data, by rw [lower_brk]; rfl⟩

theorem pom_lower_head : ∃ ps, lowerList pomChars = '(' :: ps :=
  ⟨"pomodoro)".data, by rw [lower_pom]; rfl⟩

theorem descPipeline {desc : List Char} {ts : List (List Char)} {pom : Bool}
    (hdt : trimList desc = desc)
    (hft : findTags desc = [])
    (hpomd : csContains pomChars (lowerList desc) = false)
    (hbrkd : csContains brkChars (lowerList desc) = false)
    (hts : ∀ t ∈ ts, wfTag t = true) :
    trimList (removeAllCI brkChars (removeAllCI pomChars
      (stripTags (desc ++ (tagsChunk ts ++ pomChunk pom))))) = desc := by
  have hpc : pomChunk pom = [] ∨ pomChunk pom = ' ' :: pomChars := by
    cases pom
    · left; rfl
    · right; rfl
  have hshape : tagsChunk ts ++ pomChunk pom = [] ∨
      ∃ y, tagsChunk ts ++ pomChunk pom = ' ' :: y := chunk_pc_shape ts _ hpc
  have hstrip : stripTags (desc ++ (tagsChunk ts ++ pomChunk pom)) =
      desc ++ (List.replicate ts.length ' ' ++ pomChunk pom) := by
    rw [stripTags_append_chunk hft hshape, stripTags_chunk ts _ hts hpc]
  rw [hstrip]
  have hrep : ∀ c ∈ List.replicate ts.length ' ', c = ' ' :=
    fun c hc => List.eq_of_mem_replicate hc
  have hpomd' : csContains (lowerList pomChars) (lowerList desc) = false := by
    rw [lower_pom]; exact hpomd
  have hbrkd' : csContains (lowerList brkChars) (lowerList desc) = false := by
    rw [lower_brk]; exact hbrkd
  have hpomsp : ' ' ∉ lowerList pomChars := by rw [lower_pom]; decide
  have hbrksp : ' ' ∉ lowerList brkChars := by rw [lower_brk]; decide
  cases pom with
  | true =>
    rw [show pomChunk true = ' ' :: pomChars from rfl,
      removeAll_pom_marker hpomd hrep]
    have hS : ∀ c ∈ List.replicate ts.length ' ' ++ [' '], c = ' ' := by
      intro c hc
      rcases List.mem_append.mp hc with h | h
      · exact hrep c h
      · simpa using h
    rw [removeAll_desc_spaces hbrkd' brk_lower_head hbrksp hS]
    exact trimList_desc_spaces hdt (ws_of_spaceOnly hS)
  | false =>
    rw [show pomChunk false = [] from rfl, List.append_nil,
      removeAll_desc_spaces hpomd' pom_lower_head hpomsp hrep,
      removeAll_desc_spaces hbrkd' brk_lower_head hbrksp hrep]
    exact trimList_desc_spaces hdt (ws_of_spaceOnly hrep)

theorem mem_tagsChunk {c : Char} :
    ∀ {ts : List (List Char)}, c ∈ tagsChunk ts →
      c = ' ' ∨ c = '#' ∨ ∃ t ∈ ts, c ∈ t := by
  intro ts
  induction ts with
  | nil => intro h; simp [tagsChunk] at h
  | cons t ts' ih =>
    intro h
    rcases List.mem_cons.mp h with rfl | h
    · left; rfl
    · rcases List.mem_cons.mp h with rfl | h
      · right; left; rfl
      · rcases List.mem_append.mp h with h | h
        · exact Or.inr (Or.inr ⟨t, List.mem_cons_self _ _, h⟩)
        · rcases ih h with h | h | ⟨u, hu, hcu⟩
          · exact Or.inl h
          · exact Or.inr (Or.inl h)
          · exact Or.inr (Or.inr ⟨u, List.mem_cons_of_mem _ hu, hcu⟩)

theorem tagsChunk_ne_lparen {ts : List (List Char)}
    (hts : ∀ t ∈ ts, wfTag t = true) :
    ∀ c ∈ tagsChunk ts, c ≠ '(' := by
  intro c hc
  rcases mem_tagsChunk hc with rfl | rfl | ⟨t, ht, hct⟩
  · decide
  · decide
  · exact word_ne_lparen ((wfTag_spec (hts t ht)).2 c hct)

theorem lower_tagsChunk_ne_lparen {ts : List (List Char)}
    (hts : ∀ t ∈ ts, wfTag t = true) :
    ∀ c ∈ lowerList (tagsChunk ts), c ≠ '(' := by
  intro c hc
  obtain ⟨x, hx, rfl⟩ := List.mem_map.mp hc
  intro he
  exact tagsChunk_ne_lparen hts x hx (jsLower_eq_lparen.mp he)

theorem csContains_raw_of_lower {p l : List Char}
    (hlow : csContains (lowerList p) (lowerList l) = false) :
    csContains p l = false := by
  rw [Bool.eq_false_iff]
  intro h
  have h2 : csContains (lowerList p) (lowerList l) = true := csContains_map h
  rw [hlow] at h2
  exact Bool.false_ne_true h2

theorem isPomodoro_fd {desc : List Char} {ts : List (List Char)} {pom : Bool}
    (hpomd : csContains pomChars (lowerList desc) = false)
    (hts : ∀ t ∈ ts, wfTag t = true) :
    csContains pomChars (desc ++ (tagsChunk ts ++ pomChunk pom)) = pom := by
  cases pom with
  | true =>
    have hsplit : desc ++ (tagsChunk ts ++ pomChunk true) =
        (desc ++ tagsChunk ts ++ [' ']) ++ (pomChars ++ []) := by
      show desc ++ (tagsChunk ts ++ (' ' :: pomChars)) = _
      simp [List.append_assoc]
    rw [hsplit]
    exact csContains_of_append pomChars _ []
  | false =>
    have hraw : csContains pomChars desc = false := csContains_raw_of_lower (by
      rw [lower_pom]; exact hpomd)
    rw [show pomChunk false = [] from rfl, List.append_nil]
    rcases hcs : tagsChunk ts with _ | ⟨c, y⟩
    · rw [List.append_nil]
      exact hraw
    · have hc : c = ' ' := by
        rcases ts with _ | ⟨t, ts'⟩
        · simp [tagsChunk] at hcs
        · have : tagsChunk (t :: ts') = ' ' :: '#' :: (t ++ tagsChunk ts') := rfl
          rw [this] at hcs
          exact (List.cons.injEq .. ▸ hcs).1.symm
      subst hc
      apply csContains_append_sep_false hraw
      · rw [pom_head]
        apply csContains_head_ne
        intro c' hc'
        rcases List.mem_cons.mp hc' with rfl | h
        · decide
        · exact tagsChunk_ne_lparen hts c'
            (by rw [hcs]; exact List.mem_cons_of_mem _ h)
      · rw [pom_head]
        decide

theorem ws_comp_lower : (fun c => isWsC (jsLower c)) = isWsC := funext jsLower_ws

theorem trim_lower_comm (l : List Char) :
    trimList (lowerList l) = lowerList (trimList l) := by
  show trimRight (trimLeft (l.map jsLower)) = (trimRight (trimLeft l)).map jsLower
  unfold trimRight trimLeft
  rw [List.dropWhile_map]
  rw [show (isWsC ∘ jsLower) = isWsC from funext jsLower_ws]
  rw [← List.map_reverse, List.dropWhile_map,
    show (isWsC ∘ jsLower) = isWsC from funext jsLower_ws, ← List.map_reverse]

theorem lower_space_pom : lowerList (' ' :: pomChars) = ' ' :: pomChars := by
  decide

theorem brk_contains_chunkpc {ts : List (List Char)} {pc : List Char}
    (hts : ∀ t ∈ ts, wfTag t = true) (hpc : pc = [] ∨ pc = ' ' :: pomChars) :
    csContains brkChars (lowerList (tagsChunk ts ++ pc)) = false := by
  have hchunk : csContains brkChars (lowerList (tagsChunk ts)) = false := by
    rw [brk_head]
    apply csContains_head_ne
    intro c hc
    exact lower_tagsChunk_ne_lparen hts c hc
  rcases hpc with rfl | rfl
  · rw [List.append_nil]
    exact hchunk
  · rw [show lowerList (tagsChunk ts ++ ' ' :: pomChars) =
      lowerList (tagsChunk ts) ++ ' ' :: lowerList pomChars from by
        unfold lowerList
        rw [List.map_append, List.map_cons]
        rfl]
    rw [lower_pom]
    apply csContains_append_sep_false hchunk
    · decide
    · decide

theorem brk_contains_fd {desc : List Char} {ts : List (List Char)} {pom : Bool}
    (hbrkd : csContains brkChars (lowerList desc) = false)
    (hts : ∀ t ∈ ts, wfTag t = true) :
    csContains brkChars
      (lowerList (desc ++ (tagsChunk ts ++ pomChunk pom))) = false := by
  have hpc : pomChunk pom = [] ∨ pomChunk pom = ' ' :: pomChars := by
    cases pom
    · left; rfl
    · right; rfl
  have hinner := brk_contains_chunkpc hts hpc
  rcases chunk_pc_shape ts (pomChunk pom) hpc with hsh | ⟨y, hsh⟩
  · rw [hsh, List.append_nil]
    exact hbrkd
  · rw [show lowerList (desc ++ (tagsChunk ts ++ pomChunk pom)) =
      lowerList desc ++ lowerList (tagsChunk ts ++ pomChunk pom) from
      List.map_append jsLower _ _]
    rw [hsh] at hinner ⊢
    rw [show lowerList (' ' :: y) = ' ' :: lowerList y from List.map_cons jsLower _ _]
    rw [show lowerList (' ' :: y) = ' ' :: lowerList y from
      List.map_cons jsLower _ _] at hinner
    exact csContains_append_sep_false hbrkd hinner (by decide)

theorem trim_ne_breakWord_of_mem {l : List Char} {c : Char} (hc : c ∈ l)
    (hnws : isWsC c = false) (hnb : c ∉ breakWord) :
    (trimList l == breakWord) = false := by
  simp only [beq_eq_false_iff_ne, ne_eq]
  intro he
  exact hnb (he ▸ mem_trimList hc hnws)

theorem isBreak_fd {desc : List Char} {ts : List (List Char)} {pom : Bool}
    (hdt : trimList desc = desc)
    (hbrkd : csContains brkChars (lowerList desc) = false)
    (hts : ∀ t ∈ ts, wfTag t = true) :
    ((trimList (lowerList (desc ++ (tagsChunk ts ++ pomChunk pom))) == breakWord) ||
      csContains brkChars (lowerList (desc ++ (tagsChunk ts ++ pomChunk pom)))) =
    ((lowerList desc == breakWord) && ts.isEmpty && !pom) := by
  rw [brk_contains_fd hbrkd hts, Bool.or_false]
  rcases hts' : ts with _ | ⟨t, ts'⟩
  · cases pom with
    | true =>
      have hmem : '(' ∈ desc ++ (tagsChunk [] ++ pomChunk true) := by
        apply List.mem_append.mpr
        right
        apply List.mem_append.mpr
        right
        rw [show pomChunk true = ' ' :: pomChars from rfl, pom_head]
        exact List.mem_cons_of_mem _ (List.mem_cons_self _ _)
      have hlmem : '(' ∈ lowerList (desc ++ (tagsChunk [] ++ pomChunk true)) := by
        have h2 := List.mem_map_of_mem jsLower hmem
        exact (show jsLower '(' = '(' from rfl) ▸ h2
      rw [trim_ne_breakWord_of_mem hlmem (by decide) (by decide)]
      simp
    | false =>
      rw [show tagsChunk [] ++ pomChunk false = [] from rfl, List.append_nil,
        trim_lower_comm, hdt]
      simp
  · have hmem : '#' ∈ desc ++ (tagsChunk (t :: ts') ++ pomChunk pom) := by
      apply List.mem_append.mpr
      right
      apply List.mem_append.mpr
      left
      show '#' ∈ ' ' :: '#' :: (t ++ tagsChunk ts')
      exact List.mem_cons_of_mem _ (List.mem_cons_self _ _)
    have hlmem : '#' ∈ lowerList (desc ++ (tagsChunk (t :: ts') ++ pomChunk pom)) := by
      have h2 := List.mem_map_of_mem jsLower hmem
      exact (show jsLower '#' = '#' from rfl) ▸ h2
    rw [trim_ne_breakWord_of_mem hlmem (by decide) (by decide)]
    simp

theorem formatDesc_eq {e : TimeEntry}
    (hbrk : e.isBreak =
      ((lowerList e.description == breakWord) && e.tags.isEmpty && !e.isPomodoro)) :
    formatDesc e = e.description ++ (tagsChunk e.tags ++ pomChunk e.isPomodoro) := by
  have hd1 : (if e.tags.isEmpty then e.description
      else e.description ++
        ' ' :: List.intercalate [' '] (e.tags.map (fun t => '#' :: t))) =
      e.description ++ tagsChunk e.tags := by
    rcases hts : e.tags with _ | ⟨t, ts⟩
    · simp [tagsChunk]
    · rw [if_neg (by simp), tagsChunk_eq_intercalate t ts]
  have hd2 : (if e.isPomodoro
      then (e.description ++ tagsChunk e.tags) ++ " (pomodoro)".data
      else e.description ++ tagsChunk e.tags) =
      e.description ++ (tagsChunk e.tags ++ pomChunk e.isPomodoro) := by
    cases hp : e.isPomodoro
    · rw [if_neg (by simp), show pomChunk false = [] from rfl, List.append_nil]
    · rw [if_pos rfl, show pomChunk true = ' ' :: pomChars from rfl,
        show " (pomodoro)".data = ' ' :: pomChars from rfl, List.append_assoc]
  simp only [formatDesc]
  rw [hd1, hd2]
  cases hb : e.isBreak
  · rw [if_neg (by simp)]
  · rw [hb] at hbrk
    have hbrk' := hbrk.symm
    simp only [Bool.and_eq_true, beq_iff_eq, Bool.not_eq_true'] at hbrk'
    obtain ⟨⟨hld, hte⟩, hpf⟩ := hbrk'
    have hts : e.tags = [] := by
      rcases hh : e.tags with _ | _
      · rfl
      · rw [hh] at hte
        simp at hte
    rw [hts, hpf, show tagsChunk [] ++ pomChunk false = [] from rfl,
      List.append_nil]
    rw [if_neg ?_]
    · rw [hld, show csContains breakWord breakWord = true from by decide]
      simp

theorem tagsChunk_concat :
    ∀ (t : List Char) (ts : List (List Char)),
      (∀ u ∈ t :: ts, wfTag u = true) →
      ∃ y c, tagsChunk (t :: ts) = y ++ [c] ∧ isWordC c = true := by
  intro t ts
  induction ts generalizing t with
  | nil =>
    intro h
    obtain ⟨hne, hw⟩ := wfTag_spec (h t (List.mem_cons_self _ _))
    rcases List.eq_nil_or_concat t with rfl | ⟨L, b, hL⟩
    · exact absurd rfl hne
    · rw [List.concat_eq_append] at hL
      subst hL
      refine ⟨' ' :: '#' :: L, b, ?_, hw b (by simp)⟩
      show ' ' :: '#' :: ((L ++ [b]) ++ tagsChunk []) = _
      rw [show tagsChunk ([] : List (List Char)) = [] from rfl, List.append_nil]
      rfl
  | cons t2 ts2 ih =>
    intro h
    obtain ⟨y, c, hy, hc⟩ := ih t2 (fun u hu => h u (List.mem_cons_of_mem _ hu))
    refine ⟨' ' :: '#' :: (t ++ y), c, ?_, hc⟩
    show ' ' :: '#' :: (t ++ tagsChunk (t2 :: ts2)) = _
    rw [hy]
    simp [List.append_assoc]

theorem trimRight_fd {e : TimeEntry}
    (hdt : trimList e.description = e.description)
    (hts : ∀ t ∈ e.tags, wfTag t = true)
    (hbrk : e.isBreak =
      ((lowerList e.description == breakWord) && e.tags.isEmpty && !e.isPomodoro)) :
    trimRight (formatDesc e) = formatDesc e := by
  rw [formatDesc_eq hbrk]
  cases hp : e.isPomodoro
  · rw [show pomChunk false = [] from rfl, List.append_nil]
    rcases hh : e.tags with _ | ⟨t, ts'⟩
    · rw [show tagsChunk [] = [] from rfl, List.append_nil]
      exact trimRight_of_trimList hdt
    · obtain ⟨y, c, hy, hc⟩ := tagsChunk_concat t ts' (by rw [← hh]; exact hts)
      rw [hy, show e.description ++ (y ++ [c]) = (e.description ++ y) ++ [c] from
        (List.append_assoc _ _ _).symm]
      exact trimRight_concat (word_not_ws hc)
  · rw [show pomChunk true = ' ' :: pomChars from rfl]
    have hsplit : e.description ++ (tagsChunk e.tags ++ ' ' :: pomChars) =
        (e.description ++ tagsChunk e.tags ++ " (pomodoro".data) ++ [')'] := by
      rw [show (' ' :: pomChars : List Char) = " (pomodoro".data ++ [')'] from rfl]
      simp [List.append_assoc]
    rw [hsplit]
    exact trimRight_concat (by decide)

theorem ws_space : isWsC ' ' = true := by decide

theorem ws_dash : isWsC '-' = false := by decide

theorem ws_pipe : isWsC '|' = false := by decide

theorem matchEntry_line {date st en : List Char} (r : List Char)
    (hd : wfDate date = true) (hs : wfTime st = true) (he : wfTime en = true)
    (hterm : (r.dropWhile isWsC).any (fun c => c == '\n' || c == '\r') = false) :
    matchEntry (date ++ (' ' :: (st ++ (' ' :: '-' :: ' ' ::
        (en ++ (' ' :: '|' :: r)))))) =
      some (date, st, en, r.dropWhile isWsC) := by
  obtain ⟨y1, y2, y3, y4, m1, m2, dd1, dd2, k1, k2, k3, k4, k5, k6, k7, k8, hde⟩ :=
    wfDate_shape hd
  obtain ⟨h1, h2, n1, n2, j1, j2, j3, j4, hse⟩ := wfTime_shape hs
  obtain ⟨g1, g2, q1, q2, l1, l2, l3, l4, hee⟩ := wfTime_shape he
  subst hde hse hee
  have w1 : isWsC h1 = false := digit_not_ws j1
  have w2 : isWsC g1 = false := digit_not_ws l1
  simp only [List.cons_append, List.nil_append]
  simp only [matchEntry, takeDate, takeTime, skipWs1, skipWs, expectC,
    List.dropWhile_cons, k1, k2, k3, k4, k5, k6, k7, k8, j1, j2, j3, j4,
    l1, l2, l3, l4, w1, w2, ws_space, ws_dash, ws_pipe, beq_self_eq_true,
    Bool.and_self, Bool.and_true, Bool.true_and, if_true, if_false,
    Bool.false_eq_true, hterm]

theorem wellFormedEntry_spec {e : TimeEntry} (h : wellFormedEntry e = true) :
    wfDate e.date = true ∧ wfTime e.startTime = true ∧ wfTime e.endTime = true ∧
    trimList e.description = e.description ∧
    findTags e.description = [] ∧
    e.description.contains '\n' = false ∧
    e.description.contains '\r' = false ∧
    csContains pomChars (lowerList e.description) = false ∧
    csContains brkChars (lowerList e.description) = false ∧
    (∀ t ∈ e.tags, wfTag t = true) ∧
    e.isBreak = ((lowerList e.description == breakWord) &&
      e.tags.isEmpty && !e.isPomodoro) ∧
    e.id = generateStableId e.date e.startTime e.endTime := by
  simp only [wellFormedEntry, Bool.and_eq_true, Bool.not_eq_true',
    List.all_eq_true, beq_iff_eq, and_assoc] at h
  obtain ⟨h1, h2, h3, h4, h5, h6, h7, h8, h9, h10, h11, h12, h13⟩ := h
  exact ⟨h1, h2, h3, h4, h5, h6, h7, h9, h10, h11, h12, h13⟩

theorem not_mem_of_contains_false {a : Char} {l : List Char}
    (h : l.contains a = false) : a ∉ l := by
  intro hm
  have h2 : l.contains a = true := List.elem_iff.mpr hm
  rw [h] at h2
  exact Bool.false_ne_true h2

theorem fd_no_term {e : TimeEntry}
    (hn : e.description.contains '\n' = false)
    (hr : e.description.contains '\r' = false)
    (hts : ∀ t ∈ e.tags, wfTag t = true)
    (hbrk : e.isBreak = ((lowerList e.description == breakWord) &&
      e.tags.isEmpty && !e.isPomodoro)) :
    ∀ c ∈ formatDesc e, (c == '\n' || c == '\r') = false := by
  intro c hc
  rw [formatDesc_eq hbrk] at hc
  have hcn : c ≠ '\n' ∧ c ≠ '\r' := by
    rcases List.mem_append.mp hc with h | h
    · constructor
      · intro he; subst he; exact not_mem_of_contains_false hn h
      · intro he; subst he; exact not_mem_of_contains_false hr h
    · rcases List.mem_append.mp h with h | h
      · rcases mem_tagsChunk h with rfl | rfl | ⟨t, ht, hct⟩
        · exact ⟨by decide, by decide⟩
        · exact ⟨by decide, by decide⟩
        · have hw := (wfTag_spec (hts t ht)).2 c hct
          constructor
          · intro he; subst he; exact absurd hw (by decide)
          · intro he; subst he; exact absurd hw (by decide)
      · cases hp : e.isPomodoro
        · rw [hp, show pomChunk false = [] from rfl] at h
          simp at h
        · rw [hp, show pomChunk true = ' ' :: pomChars from rfl] at h
          constructor
          · intro he; subst he; exact absurd h (by decide)
          · intro he; subst he; exact absurd h (by decide)
  simp [hcn.1, hcn.2]

theorem data_dash : (" - ".data : List Char) = [' ', '-', ' '] := rfl

theorem data_pipe : (" | ".data : List Char) = [' ', '|', ' '] := rfl

theorem C1_roundtrip_core (e : TimeEntry) (h : wellFormedEntry e = true) :
    decodeLine (formatEntry e) = some e := by
  obtain ⟨hd, hs, he, hdt, hft, hn, hr, hpomd, hbrkd, hts, hbrk, hid⟩ :=
    wellFormedEntry_spec h
  have hline : formatEntry e = e.date ++ (' ' :: (e.startTime ++
      (' ' :: '-' :: ' ' :: (e.endTime ++
        (' ' :: '|' :: (' ' :: formatDesc e)))))) := by
    unfold formatEntry
    simp [data_dash, data_pipe, List.append_assoc]
  have hterm0 : ∀ c ∈ formatDesc e, (c == '\n' || c == '\r') = false :=
    fd_no_term hn hr hts hbrk
  have htermfd : ((formatDesc e).dropWhile isWsC).any
      (fun c => c == '\n' || c == '\r') = false := by
    rw [List.any_eq_false]
    intro x hx
    have hx3 : x ∈ formatDesc e := (List.dropWhile_sublist isWsC).subset hx
    rw [hterm0 x hx3]
    simp
  have htrimleft : trimLeft (formatEntry e) = formatEntry e := by
    obtain ⟨y1, y2, y3, y4, m1, m2, dd1, dd2, k1, k2, k3, k4, k5, k6, k7, k8, hde⟩ :=
      wfDate_shape hd
    rw [hline, hde, List.cons_append]
    exact trimLeft_cons_of_neg (digit_not_ws k1)
  have hdws : (' ' :: formatDesc e).dropWhile isWsC =
      (formatDesc e).dropWhile isWsC := by
    rw [List.dropWhile_cons, if_pos (by decide)]
  have hmatch : matchEntry (trimList (formatEntry e)) =
      some (e.date, e.startTime, e.endTime, (formatDesc e).dropWhile isWsC) := by
    by_cases hfd : formatDesc e = []
    · have h1 : formatEntry e = (e.date ++ (' ' :: (e.startTime ++
          (' ' :: '-' :: ' ' :: (e.endTime ++ (' ' :: '|' :: [])))))) ++ [' '] := by
        rw [hline, hfd]
        simp [List.append_assoc]
      have h3 : e.date ++ (' ' :: (e.startTime ++
          (' ' :: '-' :: ' ' :: (e.endTime ++ (' ' :: '|' :: []))))) =
          (e.date ++ (' ' :: (e.startTime ++
            (' ' :: '-' :: ' ' :: (e.endTime ++ [' ']))))) ++ ['|'] := by
        simp [List.append_assoc]
      have h2 : trimList (formatEntry e) = e.date ++ (' ' :: (e.startTime ++
          (' ' :: '-' :: ' ' :: (e.endTime ++ (' ' :: '|' :: []))))) := by
        unfold trimList
        rw [htrimleft, h1,
          trimRight_append_ws (by intro c hc; simp at hc; rw [hc]; decide)]
        rw [h3, trimRight_concat (by decide), ← h3]
      rw [h2, matchEntry_line [] hd hs he (by simp [List.dropWhile])]
      rw [hfd]
    · have htrfd : trimRight (formatDesc e) = formatDesc e :=
        trimRight_fd hdt hts hbrk
      have h1 : formatEntry e = (e.date ++ (' ' :: (e.startTime ++
          (' ' :: '-' :: ' ' :: (e.endTime ++ (' ' :: '|' :: [])))))) ++
          (' ' :: formatDesc e) := by
        rw [hline]
        simp [List.append_assoc]
      have h2 : trimList (formatEntry e) = formatEntry e := by
        unfold trimList
        rw [htrimleft, h1, trimRight_append_cons htrfd hfd, ← h1]
      rw [h2, hline, matchEntry_line (' ' :: formatDesc e) hd hs he
        (by rw [hdws]; exact htermfd), hdws]
  have hparse : parseDescription ((formatDesc e).dropWhile isWsC) =
      parseDescription (formatDesc e) := parseDescription_dropWhile _
  have hfdeq : formatDesc e = e.description ++
      (tagsChunk e.tags ++ pomChunk e.isPomodoro) := formatDesc_eq hbrk
  have hpc : pomChunk e.isPomodoro = [] ∨
      pomChunk e.isPomodoro = ' ' :: pomChars := by
    cases e.isPomodoro
    · left; rfl
    · right; rfl
  have hshape := chunk_pc_shape e.tags (pomChunk e.isPomodoro) hpc
  have hdesc : trimList (removeAllCI brkChars (removeAllCI pomChars
      (stripTags (formatDesc e)))) = e.description := by
    rw [hfdeq]
    exact descPipeline hdt hft hpomd hbrkd hts
  have htags : findTags (formatDesc e) = e.tags := by
    rw [hfdeq, findTags_append_chunk hft hshape, findTags_chunk e.tags _ hts hpc]
  have hpom : csContains pomChars (formatDesc e) = e.isPomodoro := by
    rw [hfdeq]
    exact isPomodoro_fd hpomd hts
  have hbk : ((trimList (lowerList (formatDesc e)) == breakWord) ||
      csContains brkChars (lowerList (formatDesc e))) = e.isBreak := by
    rw [hfdeq, isBreak_fd hdt hbrkd hts]
    exact hbrk.symm
  unfold decodeLine
  rw [hmatch]
  simp only [hparse]
  rw [show parseDescription (formatDesc e) =
      { description := trimList (removeAllCI brkChars (removeAllCI pomChars
          (stripTags (formatDesc e))))
        tags := findTags (formatDesc e)
        isPomodoro := csContains pomChars (formatDesc e)
        isBreak := (trimList (lowerList (formatDesc e)) == breakWord) ||
          csContains brkChars (lowerList (formatDesc e)) : ParsedDesc } from rfl]
  rw [hdesc, htags, hpom, hbk, ← hid]

theorem findIdxO_some {α : Type} {p : α → Bool} :
    ∀ {l : List α} {i : Nat}, findIdxO p l = some i →
      ∃ hi : i < l.length, p (l.get ⟨i, hi⟩) = true ∧
        ∀ j, j < i → ∀ hj : j < l.length, p (l.get ⟨j, hj⟩) = false := by
  intro l
  induction l with
  | nil => intro i h; simp [findIdxO] at h
  | cons a as ih =>
    intro i h
    rcases ha : p a with _ | _
    · simp only [findIdxO, ha, Bool.false_eq_true, if_false] at h
      rcases hx : findIdxO p as with _ | v
      · rw [hx] at h
        simp at h
      · rw [hx] at h
        simp only [Option.map] at h
        obtain rfl : v + 1 = i := by injection h
        obtain ⟨hi, hp, hfirst⟩ := ih hx
        refine ⟨by simpa using Nat.succ_lt_succ hi, by simpa using hp, ?_⟩
        intro j hj hj'
        rcases j with _ | j'
        · simpa using ha
        · simpa using hfirst j' (by omega) (by simpa using Nat.lt_of_succ_lt_succ hj')
    · simp only [findIdxO, ha, if_true] at h
      obtain rfl : (0 : Nat) = i := by injection h
      exact ⟨by simp, by simpa using ha, fun j hj => by omega⟩

/-! ## Claim theorems -/

/-- C2 (amended): the line-level update and delete operations change at most
one line — the first line whose trimmed text equals the target — and leave
every other line byte-for-byte unchanged and in its original order; a line
not matching the entry grammar can be modified only when the target text
itself does not match the grammar (for targets that match the grammar, as all
store-issued targets do, only a grammar-matching line is ever touched). -/
theorem C2_line_ops_first_match_frame (content tgt newL : List Char) :
    replaceLineInContent content tgt newL =
      joinNl (replaceLines (splitNl content) tgt newL) ∧
    removeLineFromContent content tgt =
      joinNl (removeLines (splitNl content) tgt) ∧
    (findIdxO (fun l => trimList l == tgt) (splitNl content) = none →
       replaceLines (splitNl content) tgt newL = splitNl content ∧
       removeLines (splitNl content) tgt = splitNl content) ∧
    (∀ i, findIdxO (fun l => trimList l == tgt) (splitNl content) = some i →
       ∃ hi : i < (splitNl content).length,
         trimList ((splitNl content).get ⟨i, hi⟩) = tgt ∧
         (∀ j, j < i → ∀ hj : j < (splitNl content).length,
            trimList ((splitNl content).get ⟨j, hj⟩) ≠ tgt) ∧
         replaceLines (splitNl content) tgt newL =
           (splitNl content).take i ++ newL :: (splitNl content).drop (i + 1) ∧
         removeLines (splitNl content) tgt =
           (splitNl content).take i ++ (splitNl content).drop (i + 1) ∧
         (matchEntry tgt ≠ none →
            matchEntry (trimList ((splitNl content).get ⟨i, hi⟩)) ≠ none)) := by
  refine ⟨rfl, rfl, ?_, ?_⟩
  · intro hn
    constructor <;> simp [replaceLines, removeLines, hn]
  · intro i hs
    obtain ⟨hi, hp, hfirst⟩ := findIdxO_some hs
    have hpe : trimList ((splitNl content).get ⟨i, hi⟩) = tgt := by simpa using hp
    refine ⟨hi, hpe, ?_, ?_, ?_, ?_⟩
    · intro j hj hj'
      simpa using hfirst j hj hj'
    · simp only [replaceLines, hs]
      exact List.set_eq_take_cons_drop _ hi
    · simp only [removeLines, hs]
      exact List.eraseIdx_eq_take_drop_succ _ i
    · intro hg
      rw [hpe]
      exact hg

/-- Witness for C2 on a concrete three-line file whose middle line ` x `
matches target `x`: the theorem instantiated at that input. -/
theorem C2_line_ops_first_match_frame_witness :
    replaceLineInContent "a\n x \nb".data "x".data "y".data =
      joinNl (replaceLines (splitNl "a\n x \nb".data) "x".data "y".data) ∧
    removeLineFromContent "a\n x \nb".data "x".data =
      joinNl (removeLines (splitNl "a\n x \nb".data) "x".data) ∧
    (findIdxO (fun l => trimList l == "x".data) (splitNl "a\n x \nb".data) = none →
       replaceLines (splitNl "a\n x \nb".data) "x".data "y".data =
         splitNl "a\n x \nb".data ∧
       removeLines (splitNl "a\n x \nb".data) "x".data = splitNl "a\n x \nb".data) ∧
    (∀ i, findIdxO (fun l => trimList l == "x".data) (splitNl "a\n x \nb".data) =
        some i →
       ∃ hi : i < (splitNl "a\n x \nb".data).length,
         trimList ((splitNl "a\n x \nb".data).get ⟨i, hi⟩) = "x".data ∧
         (∀ j, j < i → ∀ hj : j < (splitNl "a\n x \nb".data).length,
            trimList ((splitNl "a\n x \nb".data).get ⟨j, hj⟩) ≠ "x".data) ∧
         replaceLines (splitNl "a\n x \nb".data) "x".data "y".data =
           (splitNl "a\n x \nb".data).take i ++
             "y".data :: (splitNl "a\n x \nb".data).drop (i + 1) ∧
         removeLines (splitNl "a\n x \nb".data) "x".data =
           (splitNl "a\n x \nb".data).take i ++
             (splitNl "a\n x \nb".data).drop (i + 1) ∧
         (matchEntry "x".data ≠ none →
            matchEntry (trimList ((splitNl "a\n x \nb".data).get ⟨i, hi⟩)) ≠ none)) :=
  C2_line_ops_first_match_frame "a\n x \nb".data "x".data "y".data

/-- Counterexample for C2 as stated: a line that does not match the entry
grammar (a bare comment) is nevertheless modified by both operations when the
target text equals it, refuting "lines not matching the entry grammar are
never modified" for arbitrary targets. -/
theorem C2_counterexample_inert_line_modified :
    matchEntry (trimList "a comment line".data) = none ∧
    replaceLineInContent "a comment line".data "a comment line".data
      "replaced".data = "replaced".data ∧
    removeLineFromContent "a comment line".data "a comment line".data = [] := by
  refine ⟨by decide, by decide, by decide⟩

/-- C3: `updateEntry` and `deleteEntry` on an id that no in-memory record
carries are silent no-ops: the in-memory record set and the file content are
both left unchanged. -/
theorem C3_unknown_id_noop (st : StoreState) (id : List Char) (u : EntryUpdates)
    (h : ∀ pe ∈ st.entries, pe.id ≠ id) :
    updateEntry st id u = st ∧ deleteEntry st id = st := by
  have hf : findIdxO (fun pe => pe.id == id) st.entries = none :=
    findIdxO_eq_none (fun pe hpe => by simpa using h pe hpe)
  constructor <;> simp [updateEntry, deleteEntry, hf]

/-- Witness for C3: on a store holding one entry, updating and deleting a
different, unknown id changes nothing. -/
theorem C3_unknown_id_noop_witness :
    updateEntry sampleStore "stale_id".data { description := some "x".data } =
      sampleStore ∧
    deleteEntry sampleStore "stale_id".data = sampleStore :=
  C3_unknown_id_noop sampleStore "stale_id".data
    { description := some "x".data } (by decide)

/-- C4: on every timer completion, a completed `work` phase increments the
completed-pomodoro count and moves to `longBreak` with the count reset to 0
when the incremented count reaches the configured threshold, else to `break`;
a completed `break` or `longBreak` phase moves back to `work` with the count
unchanged; in all cases the remaining seconds are reloaded with the new
mode's full duration and the timer becomes idle (no auto-start). -/
theorem C4_complete_transition (t : PomodoroTimer) :
    (complete t).state = TimerState.idle ∧
    (complete t).remainingSeconds =
      (getDurationForMode t.options (complete t).mode : Int) ∧
    (t.mode = TimerMode.work →
      (t.completedPomodoros + 1 ≥ t.options.pomodorosBeforeLongBreak →
        (complete t).mode = TimerMode.longBreak ∧
        (complete t).completedPomodoros = 0) ∧
      (t.completedPomodoros + 1 < t.options.pomodorosBeforeLongBreak →
        (complete t).mode = TimerMode.break_ ∧
        (complete t).completedPomodoros = t.completedPomodoros + 1)) ∧
    (t.mode = TimerMode.break_ →
      (complete t).mode = TimerMode.work ∧
      (complete t).completedPomodoros = t.completedPomodoros) ∧
    (t.mode = TimerMode.longBreak →
      (complete t).mode = TimerMode.work ∧
      (complete t).completedPomodoros = t.completedPomodoros) := by
  rcases t with ⟨opts, st, mode, rem, cp⟩
  cases mode
  · by_cases hc : opts.pomodorosBeforeLongBreak ≤ cp + 1
    · simp [complete, if_pos hc, getDurationForMode]
      omega
    · simp [complete, if_neg hc, getDurationForMode]
      omega
  · simp [complete, getDurationForMode]
  · simp [complete, getDurationForMode]

/-- Witness for C4 at a concrete timer: threshold 4, three pomodoros done,
a work phase completes, so the next mode is `longBreak` and the count resets;
the timer is idle with the long break's full duration loaded. -/
theorem C4_complete_transition_witness :
    (complete { options := { workMinutes := 25, breakMinutes := 5,
                             longBreakMinutes := 15, pomodorosBeforeLongBreak := 4 },
                state := TimerState.running, mode := TimerMode.work,
                remainingSeconds := 0, completedPomodoros := 3 }).mode =
      TimerMode.longBreak ∧
    (complete { options := { workMinutes := 25, breakMinutes := 5,
                             longBreakMinutes := 15, pomodorosBeforeLongBreak := 4 },
                state := TimerState.running, mode := TimerMode.work,
                remainingSeconds := 0, completedPomodoros := 3 }).completedPomodoros = 0 :=
  ((C4_complete_transition _).2.2.1 rfl).1 (by decide)

/-- C5: for every span with `0 ≤ start < end ≤ 96` and every integer slot
delta, the `move` drag computation preserves the span's duration and keeps
the resulting span inside `0 ≤ newStart < newEnd ≤ 96`. -/
theorem C5_move_clamps_whole_span (s e delta : Int)
    (h0 : 0 ≤ s) (h1 : s < e) (h2 : e ≤ 96) :
    (dragMove s e delta).2 - (dragMove s e delta).1 = e - s ∧
    0 ≤ (dragMove s e delta).1 ∧
    (dragMove s e delta).1 < (dragMove s e delta).2 ∧
    (dragMove s e delta).2 ≤ 96 := by
  unfold dragMove
  dsimp only
  omega

/-- Witness for C5 at the spec's example: a 5-slot entry at slots 90-95 moved
by +10 slots keeps duration 5, ends exactly at the day bound, and stays in
range (the computed span is (91, 96)). -/
theorem C5_move_clamps_whole_span_witness :
    (dragMove 90 95 10).2 - (dragMove 90 95 10).1 = 95 - 90 ∧
    0 ≤ (dragMove 90 95 10).1 ∧
    (dragMove 90 95 10).1 < (dragMove 90 95 10).2 ∧
    (dragMove 90 95 10).2 ≤ 96 :=
  C5_move_clamps_whole_span 90 95 10 (by decide) (by decide) (by decide)

/-- C6: for every span with `0 ≤ start < end ≤ 96` and every integer slot
delta, `resize-top` computes `clamp(start + delta, 0, end − 1)`, which stays
strictly below the unchanged end, and `resize-bottom` computes
`clamp(end + delta, start + 1, 96)`, which stays strictly above the unchanged
start; so a minimum 1-slot duration is always preserved. -/
theorem C6_resize_preserves_min_duration (s e delta : Int)
    (h0 : 0 ≤ s) (h1 : s < e) (h2 : e ≤ 96) :
    dragResizeTop s e delta = max 0 (min (e - 1) (s + delta)) ∧
    0 ≤ dragResizeTop s e delta ∧
    dragResizeTop s e delta < e ∧
    dragResizeBottom s e delta = max (s + 1) (min 96 (e + delta)) ∧
    s < dragResizeBottom s e delta ∧
    dragResizeBottom s e delta ≤ 96 := by
  unfold dragResizeTop dragResizeBottom
  refine ⟨rfl, ?_, ?_, rfl, ?_, ?_⟩ <;> omega

/-- Witness for C6 at a concrete span: slots 10-12 resized by an extreme
delta in each direction stay a valid span of at least one slot. -/
theorem C6_resize_preserves_min_duration_witness :
    dragResizeTop 10 12 1000 = max 0 (min (12 - 1) (10 + 1000)) ∧
    0 ≤ dragResizeTop 10 12 1000 ∧
    dragResizeTop 10 12 1000 < 12 ∧
    dragResizeBottom 10 12 1000 = max (10 + 1) (min 96 (12 + 1000)) ∧
    10 < dragResizeBottom 10 12 1000 ∧
    dragResizeBottom 10 12 1000 ≤ 96 :=
  C6_resize_preserves_min_duration 10 12 1000 (by decide) (by decide) (by decide)

/-- C9: `slotToTime` reduces hours modulo 24, so slot 96 renders as
`minutesToTime 1440 = "00:00"`; every drag commit with final end slot 96
therefore persists endTime `"00:00"`, which is lexicographically below every
nonzero start time (slots 1-95), so such a stored entry violates
`endTime > startTime` and contributes a negative amount to
`getTotalMinutesForDate`. -/
theorem C9_end_of_day_wraps_to_midnight :
    slotToTime 96 = minutesToTime 1440 ∧
    minutesToTime 1440 = "00:00".data ∧
    (∀ s : Nat, (dragCommitUpdate s 96).endTime = some ("00:00".data)) ∧
    (∀ s : Nat, s < 96 → 1 ≤ s →
      strLt (slotToTime 96) (slotToTime s) = true ∧
      getTotalMinutesForDate
        [{ sampleEntry with startTime := slotToTime s, endTime := slotToTime 96 }]
        sampleEntry.date < 0) := by
  refine ⟨rfl, by decide, fun s => rfl, ?_⟩
  decide

/-- Witness for C9 at slot 4 (start 01:00): the persisted end time "00:00"
sorts below the start time and the entry's computed duration is negative. -/
theorem C9_end_of_day_wraps_to_midnight_witness :
    strLt (slotToTime 96) (slotToTime 4) = true ∧
    getTotalMinutesForDate
      [{ sampleEntry with startTime := slotToTime 4, endTime := slotToTime 96 }]
      sampleEntry.date < 0 :=
  C9_end_of_day_wraps_to_midnight.2.2.2 4 (by decide) (by decide)

/-- C10: `generateStableId` is injective on well-formed fields: two
`(date, startTime, endTime)` triples in `YYYY-MM-DD`/`HH:MM` shape generate
the same id exactly when all three fields coincide. -/
theorem C10_stable_id_injective (d1 s1 e1 d2 s2 e2 : List Char)
    (hd1 : wfDate d1 = true) (hs1 : wfTime s1 = true) (he1 : wfTime e1 = true)
    (hd2 : wfDate d2 = true) (hs2 : wfTime s2 = true) (he2 : wfTime e2 = true) :
    generateStableId d1 s1 e1 = generateStableId d2 s2 e2 ↔
      (d1 = d2 ∧ s1 = s2 ∧ e1 = e2) := by
  constructor
  · intro h
    obtain ⟨a1, a2, a3, a4, a5, a6, a7, a8, k1, k2, k3, k4, k5, k6, k7, k8, rfl⟩ :=
      wfDate_shape hd1
    obtain ⟨b1, b2, b3, b4, b5, b6, b7, b8, l1, l2, l3, l4, l5, l6, l7, l8, rfl⟩ :=
      wfDate_shape hd2
    obtain ⟨p1, p2, p3, p4, kp1, kp2, kp3, kp4, rfl⟩ := wfTime_shape hs1
    obtain ⟨q1, q2, q3, q4, lq1, lq2, lq3, lq4, rfl⟩ := wfTime_shape hs2
    obtain ⟨r1, r2, r3, r4, kr1, kr2, kr3, kr4, rfl⟩ := wfTime_shape he1
    obtain ⟨t1, t2, t3, t4, lt1, lt2, lt3, lt4, rfl⟩ := wfTime_shape he2
    rw [generateStableId_shape k1 k2 k3 k4 k5 k6 k7 k8 kp1 kp2 kp3 kp4 kr1 kr2 kr3 kr4,
        generateStableId_shape l1 l2 l3 l4 l5 l6 l7 l8 lq1 lq2 lq3 lq4 lt1 lt2 lt3 lt4] at h
    simp only [List.cons.injEq, and_true] at h
    obtain ⟨rfl, rfl, rfl, rfl, rfl, rfl, rfl, rfl, -, rfl, rfl, rfl, rfl, -,
      rfl, rfl, rfl, rfl⟩ := h
    exact ⟨rfl, rfl, rfl⟩
  · rintro ⟨rfl, rfl, rfl⟩
    rfl

/-- Witness for C10 at concrete fields: two triples differing only in the
end time generate distinct ids (the iff instantiated at well-formed input). -/
theorem C10_stable_id_injective_witness :
    generateStableId "2025-01-21".data "11:00".data "12:30".data =
      generateStableId "2025-01-21".data "11:00".data "12:31".data ↔
    ("2025-01-21".data = "2025-01-21".data ∧ "11:00".data = "11:00".data ∧
     "12:30".data = "12:31".data) :=
  C10_stable_id_injective _ _ _ _ _ _ (by decide) (by decide) (by decide)
    (by decide) (by decide) (by decide)

theorem jsLower_word (c : Char) : isWordC (jsLower c) = isWordC c := by
  unfold jsLower
  split <;> rfl

theorem lower_break_hash : lowerList "break #".data = "break #".data := by decide

/-- C1 (amended): encoding a well-formed record with `formatEntry` and
decoding the resulting line with the parser yields the record back exactly. -/
theorem C1_encode_decode_roundtrip (e : TimeEntry)
    (h : wellFormedEntry e = true) :
    decodeLine (formatEntry e) = some e := C1_roundtrip_core e h

/-- Witness for C1: the sample entry is well-formed and round-trips. -/
theorem C1_encode_decode_roundtrip_witness :
    wellFormedEntry sampleEntry = true ∧
    decodeLine (formatEntry sampleEntry) = some sampleEntry :=
  ⟨by decide, C1_encode_decode_roundtrip sampleEntry (by decide)⟩

/-- Counterexample for C1 as stated: the record with description
`lunch break` (no pipe, no newline) and `isBreak = true` encodes to
`... | lunch break`, which decodes with `isBreak = false`, so the round trip
fails for a record satisfying only the claim's hypotheses. -/
theorem C1_counterexample_lunch_break :
    ("lunch break".data.contains '|') = false ∧
    ("lunch break".data.contains '\n') = false ∧
    decodeLine (formatEntry
      { id := "20250121_1100_1230".data, date := "2025-01-21".data
        startTime := "11:00".data, endTime := "12:30".data
        description := "lunch break".data, tags := []
        isPomodoro := false, isBreak := true }) ≠
      some { id := "20250121_1100_1230".data, date := "2025-01-21".data
             startTime := "11:00".data, endTime := "12:30".data
             description := "lunch break".data, tags := []
             isPomodoro := false, isBreak := true } :=
  ⟨by decide, by decide, by decide⟩

/-- C7 (amended): the pomodoro flag is set exactly when the description part
contains the lower-case literal `(pomodoro)` (detection is case-sensitive,
unlike the case-insensitive stripping); in particular any explicit lower-case
occurrence sets the flag, and the resulting description is the input with
tags stripped and both markers removed by one case-insensitive
left-to-right pass, trimmed. -/
theorem C7_pomodoro_detection (d : List Char) :
    (parseDescription d).isPomodoro = csContains pomChars d ∧
    (∀ a b, d = a ++ (pomChars ++ b) → (parseDescription d).isPomodoro = true) ∧
    (parseDescription d).description =
      trimList (removeAllCI brkChars (removeAllCI pomChars (stripTags d))) := by
  refine ⟨rfl, ?_, rfl⟩
  intro a b hd
  subst hd
  show csContains pomChars (a ++ (pomChars ++ b)) = true
  exact csContains_of_append pomChars a b

/-- Witness for C7: a description part with an explicit lower-case
`(pomodoro)` marker parses with the flag set. -/
theorem C7_pomodoro_detection_witness :
    (parseDescription "(pomodoro) deep work".data).isPomodoro = true :=
  (C7_pomodoro_detection "(pomodoro) deep work".data).2.1 []
    " deep work".data (by decide)

/-- Counterexample for C7 as stated: `(Pomodoro) task` contains the marker
in mixed case (case-insensitively), yet `isPomodoro` is false — detection in
the code is case-sensitive (the marker is still stripped from the text). -/
theorem C7_counterexample_mixed_case :
    csContains pomChars (lowerList "(Pomodoro) task".data) = true ∧
    (parseDescription "(Pomodoro) task".data).isPomodoro = false ∧
    (parseDescription "(Pomodoro) task".data).description = "task".data :=
  ⟨by decide, by decide, by decide⟩

/-- C8 (amended): `isBreak` is computed on the raw description part before
tag extraction: it is true exactly when that raw text, lower-cased and
trimmed, equals `break`, or contains `(break)` case-insensitively; in
particular a description part consisting of `break` followed by a tag is NOT
a break entry. -/
theorem C8_break_detection_raw (d : List Char) :
    (parseDescription d).isBreak = ((trimList (lowerList d) == breakWord) ||
      csContains brkChars (lowerList d)) ∧
    (∀ t, wfTag t = true →
      (parseDescription ("break #".data ++ t)).isBreak = false) := by
  refine ⟨rfl, ?_⟩
  intro t hwf
  obtain ⟨htne, htw⟩ := wfTag_spec hwf
  show ((trimList (lowerList ("break #".data ++ t)) == breakWord) ||
    csContains brkChars (lowerList ("break #".data ++ t))) = false
  have hlsplit : lowerList ("break #".data ++ t) =
      "break #".data ++ lowerList t := by
    unfold lowerList
    rw [List.map_append]
    rw [show List.map jsLower "break #".data = "break #".data from lower_break_hash]
  rw [hlsplit]
  have hmemne : ∀ c ∈ "break #".data ++ lowerList t, c ≠ '(' := by
    intro c hc
    rcases List.mem_append.mp hc with h | h
    · intro he
      subst he
      exact absurd h (by decide)
    · obtain ⟨x, hx, rfl⟩ := List.mem_map.mp h
      intro he
      exact word_ne_lparen (htw x hx) (jsLower_eq_lparen.mp he)
  have hcont : csContains brkChars ("break #".data ++ lowerList t) = false := by
    rw [brk_head]
    exact csContains_head_ne hmemne
  rw [hcont, Bool.or_false]
  have htrim : trimList ("break #".data ++ lowerList t) =
      "break #".data ++ lowerList t := by
    obtain ⟨L, b, hL⟩ : ∃ L b, t = L ++ [b] := by
      rcases List.eq_nil_or_concat t with rfl | ⟨L, b, hL⟩
      · exact absurd rfl htne
      · exact ⟨L, b, by rw [hL, List.concat_eq_append]⟩
    have hlast : lowerList t = lowerList L ++ [jsLower b] := by
      rw [hL]
      unfold lowerList
      rw [List.map_append]
      rfl
    unfold trimList
    rw [show ("break #".data ++ lowerList t) =
      'b' :: ("reak #".data ++ lowerList t) from rfl]
    rw [trimLeft_cons_of_neg (by decide)]
    rw [show 'b' :: ("reak #".data ++ lowerList t) =
      "break #".data ++ lowerList t from rfl]
    rw [hlast, show "break #".data ++ (lowerList L ++ [jsLower b]) =
      ("break #".data ++ lowerList L) ++ [jsLower b] from
      (List.append_assoc _ _ _).symm]
    apply trimRight_concat
    rw [jsLower_ws]
    exact word_not_ws (htw b (by rw [hL]; simp))
  rw [htrim]
  have hlen : ("break #".data ++ lowerList t).length ≠ breakWord.length := by
    rw [List.length_append]
    unfold lowerList
    rw [List.length_map]
    show 7 + t.length ≠ 5
    omega
  simp only [beq_eq_false_iff_ne, ne_eq]
  intro he
  exact hlen (by rw [he])

/-- Witness for C8: a raw description part that is exactly `break` parses as
a break entry, per the amended rule. -/
theorem C8_break_detection_raw_witness :
    (parseDescription "break".data).isBreak =
      ((trimList (lowerList "break".data) == breakWord) ||
       csContains brkChars (lowerList "break".data)) ∧
    (parseDescription ("break #".data ++ "work".data)).isBreak = false :=
  ⟨(C8_break_detection_raw "break".data).1,
   (C8_break_detection_raw "break".data).2 "work".data (by decide)⟩

/-- Counterexample for C8 as stated: for the description part `break #work`
the text remaining after tag extraction, trimmed and lower-cased, equals
`break` (the claim's condition holds), yet the code's `isBreak` is false —
the code tests the raw text before tag extraction. -/
theorem C8_counterexample_break_tag :
    claimBreakPred "break #work".data = true ∧
    (parseDescription "break #work".data).isBreak = false :=
  ⟨by decide, by decide⟩

end TimeTracker
